import Mathlib

/-!
Shallow embedding of the Quenns repository
(src/Quenns_generation.py and src/Quenns_play.py) and proofs about it.

Conventions used throughout:
* a cell is an (x, y) pair of natural numbers, as in the Python source;
* a region matrix is a list of rows, indexed mat[y][x], as in the source;
* Python sets are modelled as duplicate-free lists: set.add is modelled as
  appending, set.remove as List.erase (insertion order is the canonical
  realization of the unspecified iteration order of a Python set);
* Python dicts (here always defaultdict(list)) are modelled as association
  lists in key-insertion order, faithfully to dict ordering semantics;
* out-of-range list indexing is totalized with a default value; the Python
  code would raise there, and every use below is guarded by in-bounds facts.
-/

namespace Quenns

/-- Cells are (x, y) coordinate pairs. -/
abbrev Cell := Nat × Nat

/-- Chebyshev distance between two cells. -/
def cheb (a b : Cell) : Nat := max (Nat.dist a.1 b.1) (Nat.dist a.2 b.2)

/-- Embeds in_bounds(x, y, W, H) from Quenns_generation.py; the arguments are
integers because neighbor coordinates may be offset by -1. -/
def in_bounds (x y : Int) (W H : Nat) : Prop :=
  0 ≤ x ∧ x < (W : Int) ∧ 0 ≤ y ∧ y < (H : Int)

instance (x y : Int) (W H : Nat) : Decidable (in_bounds x y W H) := by
  unfold in_bounds; infer_instance

/-- The eight (dx, dy) neighbor offsets, in the iteration order of the nested
loops of neighbors() in the source: dx outer, dy inner, skipping (0, 0). -/
def nbrOffsets : List (Int × Int) :=
  [(-1, -1), (-1, 0), (-1, 1), (0, -1), (0, 1), (1, -1), (1, 0), (1, 1)]

/-- Embeds neighbors(x, y, W, H): the in-bounds cells 8-adjacent to (x, y). -/
def neighbors (x y W H : Nat) : List Cell :=
  nbrOffsets.filterMap fun d =>
    let nx : Int := (x : Int) + d.1
    let ny : Int := (y : Int) + d.2
    if in_bounds nx ny W H then some (nx.toNat, ny.toNat) else none

/-- Row-major scan order of the W×H grid (y outer, x inner), the iteration
order of the nested loops in region_map_from_matrix. -/
def scanCells (W H : Nat) : List Cell :=
  (List.range H).flatMap fun y => (List.range W).map fun x => (x, y)

section RegionMap

variable {α : Type} [DecidableEq α] [Inhabited α]

/-- Embeds the matrix access mat[y][x] (rows are indexed y-first). -/
def matAt (m : List (List α)) (c : Cell) : α := (m.getD c.2 []).getD c.1 default

/-- Append cell c to the entry of key k, creating the entry at the end of the
association list when the key is absent: the behaviour of
defaultdict(list)[k].append(c) under Python's insertion-ordered dicts. -/
def rmapInsert (rm : List (α × List Cell)) (k : α) (c : Cell) : List (α × List Cell) :=
  match rm with
  | [] => [(k, [c])]
  | (k0, cs) :: rest =>
    if k0 = k then (k0, cs ++ [c]) :: rest else (k0, cs) :: rmapInsert rest k c

/-- Embeds region_map_from_matrix(mat): region id → list of its cells, keys in
first-appearance order, each cell list in row-major scan order. -/
def region_map_from_matrix (m : List (List α)) : List (α × List Cell) :=
  (scanCells (m.headD []).length m.length).foldl (fun rm c => rmapInsert rm (matAt m c) c) []

/-- Lookup in the association list (Python dict access REGION_MAP[k]). -/
def rmLookup (rm : List (α × List Cell)) (k : α) : List Cell :=
  match rm with
  | [] => []
  | (k0, cs) :: rest => if k0 = k then cs else rmLookup rest k

end RegionMap

/-- Search state of the backtracker of Quenns_generation.py: the two nonlocal
accumulators (solutions, one_solution) together with the three exclusion sets
threaded through the recursion. -/
structure GState where
  solutions : Nat
  one_solution : Option (List Cell)
  taken_rows : List Nat
  taken_cols : List Nat
  occupied : List Cell

/-- The guard `limit is not None and solutions >= limit` of the source. -/
def limitHit (limit : Option Nat) (s : Nat) : Prop :=
  match limit with
  | none => False
  | some k => k ≤ s

instance (limit : Option Nat) (s : Nat) : Decidable (limitHit limit s) := by
  unfold limitHit; cases limit <;> infer_instance

/-- Placement step of backtrack: add (x, y) to occupied and mark its row and
column taken (set.add modelled as append). -/
def place (st : GState) (x y : Nat) : GState :=
  { st with occupied := st.occupied ++ [(x, y)],
            taken_rows := st.taken_rows ++ [y],
            taken_cols := st.taken_cols ++ [x] }

/-- Undo step of backtrack (set.remove modelled as List.erase). -/
def unplace (st : GState) (x y : Nat) : GState :=
  { st with occupied := st.occupied.erase (x, y),
            taken_rows := st.taken_rows.erase y,
            taken_cols := st.taken_cols.erase x }

/-- Leaf of backtrack, i == len(REGION_IDS): count the assignment and keep a
copy of the occupied set as witness if none was kept yet. -/
def recordGen (st : GState) : GState :=
  { st with solutions := st.solutions + 1,
            one_solution := match st.one_solution with
                            | none => some st.occupied
                            | some w => some w }

/-- The candidate loop `for (x, y) in REGION_MAP[rid]` of backtrack in
Quenns_generation.py; recur is the recursive call on the remaining regions. -/
def loopGen (W H : Nat) (limit : Option Nat) (recur : GState → GState) :
    List Cell → GState → GState
  | [], st => st
  | (x, y) :: cs, st =>
    if y ∈ st.taken_rows ∨ x ∈ st.taken_cols then
      loopGen W H limit recur cs st
    else if ∃ c ∈ neighbors x y W H, c ∈ st.occupied then
      loopGen W H limit recur cs st
    else
      let st3 := unplace (recur (place st x y)) x y
      if limitHit limit st3.solutions then st3 else loopGen W H limit recur cs st3

/-- Embeds backtrack(i, taken_rows, taken_cols, occupied) of
solver_count_and_one_solution_from_regions; the list argument holds the
(REGION_IDS[i], REGION_MAP[REGION_IDS[i]]) pairs for the indices not yet
assigned, in order. -/
def backtrackGen {α : Type} (W H : Nat) (limit : Option Nat) :
    List (α × List Cell) → GState → GState
  | [] => fun st => if limitHit limit st.solutions then st else recordGen st
  | (_, cells) :: rest => fun st =>
    if limitHit limit st.solutions then st
    else loopGen W H limit (backtrackGen W H limit rest) cells st

/-- Embeds solver_count_and_one_solution_from_regions(regions_matrix, limit). -/
def solver_count_and_one_solution_from_regions {α : Type} [DecidableEq α] [Inhabited α]
    (m : List (List α)) (limit : Option Nat) : Nat × Option (List Cell) :=
  let H := m.length
  let W := (m.headD []).length
  let fin := backtrackGen W H limit (region_map_from_matrix m) ⟨0, none, [], [], []⟩
  (fin.solutions, fin.one_solution)

/-- Search state of the backtracker of Quenns_play.py: like GState but with
the additional (never consulted) taken_regions set and a list of witnesses
instead of a single one. Region ids have type α. -/
structure PState (α : Type) where
  solutions : Nat
  one_solution : Option (List (List Cell))
  taken_rows : List Nat
  taken_cols : List Nat
  taken_regions : List α
  occupied : List Cell

/-- Leaf of the play backtracker: `occupied = sorted(occupied, key=lambda x: x[0])`
followed by appending the copy to the witness list (creating it if None).
Python's sort is stable; ties in the key are immaterial here because witness
cells have pairwise distinct x coordinates (proved below). -/
def recordPlay {α : Type} (st : PState α) : PState α :=
  let occs := st.occupied.mergeSort fun a b => decide (a.1 ≤ b.1)
  { st with solutions := st.solutions + 1,
            one_solution := match st.one_solution with
                            | none => some [occs]
                            | some l => some (l ++ [occs]) }

/-- The candidate loop `for (x, y) in cells` of backtrack in Quenns_play.py;
rid is the region id of the current level (recorded in taken_regions). -/
def loopPlay {α : Type} [DecidableEq α] (W H : Nat) (limit : Option Nat) (rid : α)
    (recur : PState α → PState α) : List Cell → PState α → PState α
  | [], st => st
  | (x, y) :: cs, st =>
    if y ∈ st.taken_rows ∨ x ∈ st.taken_cols then
      loopPlay W H limit rid recur cs st
    else if ∃ c ∈ neighbors x y W H, c ∈ st.occupied then
      loopPlay W H limit rid recur cs st
    else
      let st1 : PState α :=
        { st with occupied := st.occupied ++ [(x, y)],
                  taken_rows := st.taken_rows ++ [y],
                  taken_cols := st.taken_cols ++ [x],
                  taken_regions := st.taken_regions ++ [rid] }
      let st2 := recur st1
      let st3 : PState α :=
        { st2 with occupied := st2.occupied.erase (x, y),
                   taken_rows := st2.taken_rows.erase y,
                   taken_cols := st2.taken_cols.erase x,
                   taken_regions := st2.taken_regions.erase rid }
      if limitHit limit st3.solutions then st3 else loopPlay W H limit rid recur cs st3

/-- Embeds backtrack(i, taken_rows, taken_cols, taken_regions, occupied) of
solver_count_and_one_solution in Quenns_play.py. -/
def backtrackPlay {α : Type} [DecidableEq α] (W H : Nat) (limit : Option Nat) :
    List (α × List Cell) → PState α → PState α
  | [] => fun st => if limitHit limit st.solutions then st else recordPlay st
  | (rid, cells) :: rest => fun st =>
    if limitHit limit st.solutions then st
    else loopPlay W H limit rid (backtrackPlay W H limit rest) cells st

/-- Embeds solver_count_and_one_solution(limit) of Quenns_play.py; the module
globals REGIONS / REGION_MAP / REGION_IDS are passed as the matrix m. -/
def solver_count_and_one_solution {α : Type} [DecidableEq α] [Inhabited α]
    (m : List (List α)) (limit : Option Nat) : Nat × Option (List (List Cell)) :=
  let H := m.length
  let W := (m.headD []).length
  let fin := backtrackPlay W H limit (region_map_from_matrix m) ⟨0, none, [], [], [], []⟩
  (fin.solutions, fin.one_solution)

/-- Embeds is_valid_partial(board) of Quenns_play.py (source name kept up to
casing). The module globals REGIONS / WIDTH / HEIGHT are passed as the matrix
m; the board is the list of crowned cells (Python dict keys, duplicate-free).
The source walks the board once, counting rows, columns and regions and
returning False at the first crowned neighbor, then rejects any count > 1;
the result is False exactly when some crowned cell has a crowned neighbor or
some row, column or region count exceeds 1. -/
def isValidPartial {α : Type} [DecidableEq α] [Inhabited α]
    (m : List (List α)) (board : List Cell) : Bool :=
  let H := m.length
  let W := (m.headD []).length
  if ∃ c ∈ board, ∃ d ∈ neighbors c.1 c.2 W H, d ∈ board then false
  else if ∃ c ∈ board, 1 < (board.map (·.2)).count c.2 then false
  else if ∃ c ∈ board, 1 < (board.map (·.1)).count c.1 then false
  else if ∃ c ∈ board, 1 < (board.map (fun d => matAt m d)).count (matAt m c) then false
  else true

/-- The four orthogonal growth directions of generate_voronoi_regions, in
source order. -/
def dirs4 : List (Int × Int) := [(1, 0), (-1, 0), (0, 1), (0, -1)]

/-- State of the region-growing loop of generate_voronoi_regions: the matrix
being filled, the per-region frontier queues, the (persistently shuffled)
active list and a round counter. history is ghost instrumentation recording
every cell ever enqueued, in order; it influences nothing. -/
structure VState where
  mat : List (List (Option Nat))
  queues : List (List Cell)
  active : List Nat
  round : Nat
  history : List Cell

/-- Write region id r into mat[y][x]. -/
def matSet (m : List (List (Option Nat))) (c : Cell) (r : Nat) : List (List (Option Nat)) :=
  m.set c.2 ((m.getD c.2 []).set c.1 (some r))

/-- queues[rid].append(c). -/
def enqueue (qs : List (List Cell)) (rid : Nat) (c : Cell) : List (List Cell) :=
  qs.set rid (qs.getD rid [] ++ [c])

/-- One seed initialization step of generate_voronoi_regions, for
p = (rid, seed) from enumerate(seeds): mat[sy][sx] = rid and
queues[rid].append(seed). -/
def seedWrite (st : VState) (p : Nat × Cell) : VState :=
  { st with mat := matSet st.mat p.2 p.1,
            queues := enqueue st.queues p.1 p.2,
            history := st.history ++ [p.2] }

/-- Seed initialization of generate_voronoi_regions: a None-filled H×W matrix,
then the seedWrite step for each (rid, seed) in enumerate(seeds). -/
def initVState (W H n : Nat) (seeds : List Cell) : VState :=
  seeds.enum.foldl seedWrite
    ⟨List.replicate H (List.replicate W none), List.replicate n [], List.range n, 0, []⟩

/-- One direction of the growth loop body of generate_voronoi_regions: if the
d-offset neighbor of c is in bounds and unclaimed, claim it for rid and
enqueue it. -/
def claimStep (W H rid : Nat) (c : Cell) (st : VState) (d : Int × Int) : VState :=
  let nx : Int := (c.1 : Int) + d.1
  let ny : Int := (c.2 : Int) + d.2
  if in_bounds nx ny W H ∧ matAt st.mat (nx.toNat, ny.toNat) = none then
    { st with mat := matSet st.mat (nx.toNat, ny.toNat) rid,
              queues := enqueue st.queues rid (nx.toNat, ny.toNat),
              history := st.history ++ [(nx.toNat, ny.toNat)] }
  else st

/-- Claim every still-unclaimed 4-neighbor of cell c for region rid: the inner
`for dx, dy in ((1,0),(-1,0),(0,1),(0,-1))` loop of generate_voronoi_regions. -/
def growCell (W H : Nat) (rid : Nat) (c : Cell) (st : VState) : VState :=
  dirs4.foldl (claimStep W H rid c) st

/-- One `for rid in active` body: skip an empty queue, otherwise popleft its
oldest frontier cell and grow from it. -/
def stepRid (W H : Nat) (st : VState) (rid : Nat) : VState :=
  match st.queues.getD rid [] with
  | [] => st
  | c :: rest => growCell W H rid c { st with queues := st.queues.set rid rest }

/-- One iteration of the while-loop: rng.shuffle(active) (the shuffled list
persists into the next round, as the Python shuffle is in place), then step
every region in the shuffled order. -/
def roundStep (W H : Nat) (shuffle : Nat → List Nat → List Nat) (st : VState) : VState :=
  let act := shuffle st.round st.active
  act.foldl (stepRid W H) { st with active := act, round := st.round + 1 }

/-- The `while any(queues)` loop. The Python loop runs until all queues are
empty; here it is given fuel, and 2*W*H + 1 rounds are proved sufficient
below whenever the shuffle oracle is a genuine shuffle, so the fuel never
runs out in any run the source can exhibit. -/
def voronoiLoop (W H : Nat) (shuffle : Nat → List Nat → List Nat) :
    Nat → VState → VState
  | 0, st => st
  | fuel + 1, st =>
    if ∃ q ∈ st.queues, q ≠ [] then voronoiLoop W H shuffle fuel (roundStep W H shuffle st)
    else st

/-- Embeds generate_voronoi_regions(W, H, n_regions, rng). The two rng calls
are modelled by oracles: seeds stands for the result of
rng.sample(all_coords, n_regions) — a duplicate-free selection of n_regions
grid cells — and shuffle r l for the in-place rng.shuffle of the active list
at round r, a permutation of l. -/
def generate_voronoi_regions (W H n : Nat) (seeds : List Cell)
    (shuffle : Nat → List Nat → List Nat) : List (List (Option Nat)) :=
  (voronoiLoop W H shuffle (3 * W * H + 1) (initVState W H n seeds)).mat

/-- Result of find_and_save_unique_maps. The Python function communicates by
side effects; they are modelled as data: saved is the sequence of
(RegionMatrix, witness) pairs passed to save_puzzle_to_csv, in order, and
no_puzzles_msg records whether the final "No unique-solution puzzles found."
message is printed. -/
structure FindResult where
  found : Nat
  tries : Nat
  saved : List (List (List (Option Nat)) × Option (List Cell))
  no_puzzles_msg : Bool
deriving DecidableEq

/-- The `while tries < attempts and found < want` loop of
find_and_save_unique_maps; sample t and shuffle t are the rng oracles used by
the generation at iteration t (Python threads one rng through all calls).
The loop makes at most attempts iterations, so the structural fuel argument,
kept equal to attempts - tries, never runs out before the guard fails. -/
def findLoop (W H attempts want : Nat) (sample : Nat → List Cell)
    (shuffle : Nat → Nat → List Nat → List Nat) :
    Nat → Nat → Nat → List (List (List (Option Nat)) × Option (List Cell)) → FindResult
  | 0, tries, found, saved => ⟨found, tries, saved, decide (found = 0)⟩
  | fuel + 1, tries, found, saved =>
    if tries < attempts ∧ found < want then
      let regions := generate_voronoi_regions W H W (sample tries) (shuffle tries)
      let r := solver_count_and_one_solution_from_regions regions (some 2)
      if r.1 = 1 then
        findLoop W H attempts want sample shuffle fuel (tries + 1) (found + 1)
          (saved ++ [(regions, r.2)])
      else findLoop W H attempts want sample shuffle fuel (tries + 1) found saved
    else ⟨found, tries, saved, decide (found = 0)⟩

/-- Embeds find_and_save_unique_maps(W, H, attempts, want, seed); the rng
derived from seed is modelled by the two oracles. -/
def find_and_save_unique_maps (W H attempts want : Nat) (sample : Nat → List Cell)
    (shuffle : Nat → Nat → List Nat → List Nat) : FindResult :=
  findLoop W H attempts want sample shuffle attempts 0 0 []

/-- The 4-neighbor list used for region growth (the in-bounds cells reached by
the four orthogonal offsets of dirs4, in source order). -/
def neighbors4 (x y W H : Nat) : List Cell :=
  dirs4.filterMap fun d =>
    let nx : Int := (x : Int) + d.1
    let ny : Int := (y : Int) + d.2
    if in_bounds nx ny W H then some (nx.toNat, ny.toNat) else none

/-! ### Invariants of the generation solver -/
/-- The candidate rejection test of the backtracker, phrased against the
occupied list alone (throughout the search the taken row and column sets are
exactly the projections of the occupied set, see SyncG). -/
def conflictFree (W H : Nat) (occ : List Cell) (c : Cell) : Prop :=
  c.2 ∉ occ.map Prod.snd ∧ c.1 ∉ occ.map Prod.fst ∧
    ¬∃ d ∈ neighbors c.1 c.2 W H, d ∈ occ

instance (W H : Nat) (occ : List Cell) (c : Cell) : Decidable (conflictFree W H occ c) := by
  unfold conflictFree; infer_instance

/-- Specification count for one region: the sum over the region's candidate
cells of the number of completions after placing that cell. -/
def sumCands (W H : Nat) (f : List Cell → Nat) : List Cell → List Cell → Nat
  | [], _ => 0
  | c :: cs, occ =>
    (if conflictFree W H occ c then f (occ ++ [c]) else 0) + sumCands W H f cs occ

/-- Specification count of the whole search: the number of ways to extend occ
by one conflict-free cell from each remaining region list, in order. -/
def countSols {α : Type} (W H : Nat) : List (α × List Cell) → List Cell → Nat
  | [] => fun _ => 1
  | (_, cells) :: rest => fun occ => sumCands W H (countSols W H rest) cells occ

/-- w completes occ by appending one conflict-free cell chosen from each
remaining region list, in order. -/
inductive Completes {α : Type} (W H : Nat) : List Cell → List (α × List Cell) → List Cell → Prop
  | nil (occ : List Cell) : Completes W H occ [] occ
  | cons {occ : List Cell} (rid : α) {cells : List Cell} {rest : List (α × List Cell)}
      {w : List Cell} (c : Cell) (hc : c ∈ cells) (hfree : conflictFree W H occ c)
      (hrec : Completes W H (occ ++ [c]) rest w) :
      Completes W H occ ((rid, cells) :: rest) w

/-- The taken-row and taken-column sets are exactly the projections of the
occupied set, as the Python code maintains. -/
def SyncG (st : GState) : Prop :=
  st.taken_rows = st.occupied.map Prod.snd ∧ st.taken_cols = st.occupied.map Prod.fst

/-! ### Invariants of the Voronoi region generator -/
/-- Well-formedness of the matrix being filled: H rows of width W. -/
def matShape (W H : Nat) (mat : List (List (Option Nat))) : Prop :=
  mat.length = H ∧ ∀ row ∈ mat, row.length = W

/-- Total number of queued cells. -/
def queueSum (st : VState) : Nat := (st.queues.map List.length).sum

/-- Number of still-unclaimed grid cells. -/
def unclaimedCount (W H : Nat) (st : VState) : Nat :=
  ((scanCells W H).filter fun c => decide (matAt st.mat c = none)).length

/-- Termination measure of the growth loop: every dequeue lowers it by one and
every claim lowers it by one (a claim trades one unclaimed cell, weight two,
for one queued cell, weight one). -/
def vmeasure (W H : Nat) (st : VState) : Nat := queueSum st + 2 * unclaimedCount W H st

/-- 4-connectivity within a cell predicate P: c is reachable from s through
cells satisfying P by orthogonal steps. -/
inductive Reach4 (W H : Nat) (P : Cell → Prop) (s : Cell) : Cell → Prop
  | refl : Reach4 W H P s s
  | step {a b : Cell} (h1 : Reach4 W H P s a) (h2 : b ∈ neighbors4 a.1 a.2 W H) (h3 : P b) :
      Reach4 W H P s b

/-- The loop invariant of generate_voronoi_regions, except for the
frontier-completeness property Processed below. -/
structure VInv0 (W H n : Nat) (seeds : List Cell) (st : VState) : Prop where
  mshape : matShape W H st.mat
  qlen : st.queues.length = n
  qcells : ∀ rid, rid < n → ∀ c ∈ st.queues.getD rid [], matAt st.mat c = some rid
  matIds : ∀ c r, matAt st.mat c = some r → r < n
  seedsCl : ∀ i, i < n → matAt st.mat (seeds.getD i (0, 0)) = some i
  reach : ∀ c r, matAt st.mat c = some r →
    Reach4 W H (fun d => matAt st.mat d = some r) (seeds.getD r (0, 0)) c
  histNd : st.history.Nodup
  histCl : ∀ c ∈ st.history, matAt st.mat c ≠ none
  activeP : st.active.Perm (List.range n)

/-- Every claimed cell is still on its region's frontier queue or has all its
in-bounds 4-neighbors claimed. -/
def Processed (W H : Nat) (st : VState) : Prop :=
  ∀ c r, matAt st.mat c = some r → c ∈ st.queues.getD r [] ∨
    ∀ d ∈ neighbors4 c.1 c.2 W H, matAt st.mat d ≠ none

/-- Processed with one exempt cell (the cell just dequeued, whose neighbors
are being claimed). -/
def ProcessedExc (W H : Nat) (c0 : Cell) (st : VState) : Prop :=
  ∀ c r, matAt st.mat c = some r → c = c0 ∨ c ∈ st.queues.getD r [] ∨
    ∀ d ∈ neighbors4 c.1 c.2 W H, matAt st.mat d ≠ none

/-! ### The play solver: simulation against the generation solver, and
sortedness of its recorded witnesses -/
/-- The play and generation search states agree on the solution counter and
the three exclusion sets consulted by the search (the play state additionally
carries the never-consulted taken_regions set and a witness list). -/
def RelPG {α : Type} (stp : PState α) (stg : GState) : Prop :=
  stp.solutions = stg.solutions ∧ stp.taken_rows = stg.taken_rows ∧
  stp.taken_cols = stg.taken_cols ∧ stp.occupied = stg.occupied

/-- Sync invariant of the play solver: the taken-row and taken-column sets
are the projections of the occupied set, whose x coordinates are pairwise
distinct. -/
def SyncP {α : Type} (st : PState α) : Prop :=
  st.taken_rows = st.occupied.map Prod.snd ∧ st.taken_cols = st.occupied.map Prod.fst ∧
  (st.occupied.map Prod.fst).Nodup

/-- Every witness recorded so far is strictly increasing in x. -/
def WitSorted {α : Type} (st : PState α) : Prop :=
  ∀ ws, st.one_solution = some ws → ∀ w ∈ ws, w.Pairwise (fun a b : Cell => a.1 < b.1)

/-! ### Shape of the solutions found by the search -/
/-- The pairwise constraints between two placed crowns: distinct rows,
distinct columns, not 8-adjacent (Chebyshev distance above 1). -/
def okPair (a b : Cell) : Prop := a.2 ≠ b.2 ∧ a.1 ≠ b.1 ∧ 1 < cheb a b

/-! ### Characterization of the driver loop -/
/-- The region matrix the driver generates at iteration t. -/
def genAt (W H : Nat) (sample : Nat → List Cell)
    (shuffle : Nat → Nat → List Nat → List Nat) (t : Nat) : List (List (Option Nat)) :=
  generate_voronoi_regions W H W (sample t) (shuffle t)

/-- The solver result (limit 2) for iteration t's matrix. -/
def solveAt (W H : Nat) (sample : Nat → List Cell)
    (shuffle : Nat → Nat → List Nat → List Nat) (t : Nat) : Nat × Option (List Cell) :=
  solver_count_and_one_solution_from_regions (genAt W H sample shuffle t) (some 2)

/-- The puzzles accepted and saved among the first tries iterations, in
order: exactly those whose solver count is 1. -/
def savedSpec (W H : Nat) (sample : Nat → List Cell)
    (shuffle : Nat → Nat → List Nat → List Nat) (tries : Nat) :
    List (List (List (Option Nat)) × Option (List Cell)) :=
  ((List.range tries).filter fun t => decide ((solveAt W H sample shuffle t).1 = 1)).map
    fun t => (genAt W H sample shuffle t, (solveAt W H sample shuffle t).2)

/-! ### Witness existence: a positive count means a witness was recorded -/
/-- If no witness has been recorded yet, no solution has been counted: an
invariant of every state the search passes through. -/
def NoneZero (st : GState) : Prop := st.one_solution = none → st.solutions = 0

/-! ### Characterization of the neighbor lists -/
theorem cheb_comm (a b : Cell) : cheb a b = cheb b a := by
  simp [cheb, Nat.dist_comm]

theorem mem_neighbors {x y W H : Nat} {p : Cell} :
    p ∈ neighbors x y W H ↔
      p.1 < W ∧ p.2 < H ∧ p ≠ (x, y) ∧ cheb p (x, y) ≤ 1 := by
  obtain ⟨a, b⟩ := p
  constructor
  · intro hmem
    simp only [neighbors, List.mem_filterMap] at hmem
    obtain ⟨d, hd, h⟩ := hmem
    have hd1 : (d.1 = -1 ∨ d.1 = 0 ∨ d.1 = 1) ∧ (d.2 = -1 ∨ d.2 = 0 ∨ d.2 = 1) ∧
        ¬(d.1 = 0 ∧ d.2 = 0) := by
      obtain ⟨d1, d2⟩ := d
      simp only [nbrOffsets, List.mem_cons, Prod.mk.injEq, List.not_mem_nil, or_false] at hd
      omega
    split_ifs at h with hin
    unfold in_bounds at hin
    simp only [Option.some.injEq, Prod.mk.injEq] at h
    refine ⟨by omega, by omega, ?_, ?_⟩
    · intro he
      rw [Prod.mk.injEq] at he
      omega
    · simp only [cheb, Nat.max_le, Nat.dist]
      constructor <;> omega
  · rintro ⟨ha, hb, hne, hch⟩
    have hne2 : ¬(a = x ∧ b = y) := by
      rintro ⟨h1, h2⟩
      exact hne (by simp [h1, h2])
    simp only [cheb, Nat.max_le, Nat.dist] at hch
    simp only [neighbors, List.mem_filterMap]
    refine ⟨((a : Int) - x, (b : Int) - y), ?_, ?_⟩
    · simp only [nbrOffsets, List.mem_cons, Prod.mk.injEq, List.not_mem_nil, or_false]
      omega
    · have hin : in_bounds ((x : Int) + ((a : Int) - x)) ((y : Int) + ((b : Int) - y)) W H := by
        unfold in_bounds
        omega
      rw [if_pos hin]
      simp only [Option.some.injEq, Prod.mk.injEq]
      omega

theorem mem_neighbors4 {x y W H : Nat} {p : Cell} :
    p ∈ neighbors4 x y W H ↔
      p.1 < W ∧ p.2 < H ∧ Nat.dist p.1 x + Nat.dist p.2 y = 1 := by
  obtain ⟨a, b⟩ := p
  constructor
  · intro hmem
    simp only [neighbors4, List.mem_filterMap] at hmem
    obtain ⟨d, hd, h⟩ := hmem
    have hd1 : (d.1 = 1 ∧ d.2 = 0) ∨ (d.1 = -1 ∧ d.2 = 0) ∨ (d.1 = 0 ∧ d.2 = 1) ∨
        (d.1 = 0 ∧ d.2 = -1) := by
      obtain ⟨d1, d2⟩ := d
      simp only [dirs4, List.mem_cons, Prod.mk.injEq, List.not_mem_nil, or_false] at hd
      omega
    split_ifs at h with hin
    unfold in_bounds at hin
    simp only [Option.some.injEq, Prod.mk.injEq] at h
    simp only [Nat.dist]
    omega
  · rintro ⟨ha, hb, hd⟩
    simp only [Nat.dist] at hd
    simp only [neighbors4, List.mem_filterMap]
    refine ⟨((a : Int) - x, (b : Int) - y), ?_, ?_⟩
    · simp only [dirs4, List.mem_cons, Prod.mk.injEq, List.not_mem_nil, or_false]
      omega
    · have hin : in_bounds ((x : Int) + ((a : Int) - x)) ((y : Int) + ((b : Int) - y)) W H := by
        unfold in_bounds
        omega
      rw [if_pos hin]
      simp only [Option.some.injEq, Prod.mk.injEq]
      omega

theorem mem_scanCells {W H : Nat} {c : Cell} :
    c ∈ scanCells W H ↔ c.1 < W ∧ c.2 < H := by
  obtain ⟨a, b⟩ := c
  simp only [scanCells, List.mem_flatMap, List.mem_map, List.mem_range, Prod.mk.injEq]
  constructor
  · rintro ⟨y, hy, x, hx, h1, h2⟩
    omega
  · rintro ⟨ha, hb⟩
    exact ⟨b, hb, a, ha, rfl, rfl⟩

theorem scanCells_nodup (W H : Nat) : (scanCells W H).Nodup := by
  unfold scanCells
  rw [List.nodup_flatMap]
  constructor
  · intro y _
    refine List.Nodup.map ?_ (List.nodup_range W)
    intro a b h
    simpa using congrArg Prod.fst h
  · refine (List.pairwise_lt_range H).imp ?_
    intro y1 y2 hlt
    simp only [Function.onFun, List.disjoint_left, List.mem_map, List.mem_range]
    rintro c ⟨x1, hx1, rfl⟩ ⟨x2, hx2, hc⟩
    rw [Prod.mk.injEq] at hc
    omega

/-! ### The region map as an insertion-ordered association list -/
section RegionMapLemmas

variable {α : Type} [DecidableEq α] [Inhabited α]

theorem rmLookup_rmapInsert (rm : List (α × List Cell)) (k k0 : α) (c : Cell) :
    rmLookup (rmapInsert rm k c) k0 =
      if k0 = k then rmLookup rm k ++ [c] else rmLookup rm k0 := by
  induction rm with
  | nil =>
    by_cases h : k0 = k
    · subst h
      simp [rmapInsert, rmLookup]
    · simp [rmapInsert, rmLookup, h, Ne.symm h]
  | cons p rest ih =>
    obtain ⟨k1, cs⟩ := p
    by_cases h1 : k1 = k
    · subst h1
      by_cases h0 : k0 = k1
      · subst h0
        simp [rmapInsert, rmLookup]
      · simp [rmapInsert, rmLookup, h0, Ne.symm h0]
    · by_cases h0 : k0 = k1
      · subst h0
        simp [rmapInsert, h1, rmLookup, Ne.symm h1]
      · simp [rmapInsert, h1, rmLookup, Ne.symm h0, h0, ih]

theorem keys_rmapInsert (rm : List (α × List Cell)) (k : α) (c : Cell) :
    (rmapInsert rm k c).map Prod.fst =
      if k ∈ rm.map Prod.fst then rm.map Prod.fst else rm.map Prod.fst ++ [k] := by
  induction rm with
  | nil => simp [rmapInsert]
  | cons p rest ih =>
    obtain ⟨k1, cs⟩ := p
    by_cases h1 : k1 = k
    · subst h1
      simp [rmapInsert]
    · simp only [rmapInsert, if_neg h1, List.map_cons, ih, List.mem_cons]
      by_cases hmem : k ∈ rest.map Prod.fst
      · simp [hmem, Ne.symm h1]
      · simp only [hmem, if_false]
        rw [if_neg, List.cons_append]
        rintro (h | h)
        · exact h1 h.symm
        · exact h.elim

theorem nodup_keys_rmapInsert {rm : List (α × List Cell)} (k : α) (c : Cell)
    (hnd : (rm.map Prod.fst).Nodup) : ((rmapInsert rm k c).map Prod.fst).Nodup := by
  rw [keys_rmapInsert]
  split_ifs with h
  · exact hnd
  · rw [List.nodup_append]
    refine ⟨hnd, List.nodup_singleton k, ?_⟩
    intro a ha hk
    rw [List.mem_singleton] at hk
    subst hk
    exact h ha

theorem rmLookup_of_mem {rm : List (α × List Cell)} (hnd : (rm.map Prod.fst).Nodup)
    {k : α} {cs : List Cell} (h : (k, cs) ∈ rm) : rmLookup rm k = cs := by
  induction rm with
  | nil => simp at h
  | cons p rest ih =>
    obtain ⟨k1, cs1⟩ := p
    simp only [List.map_cons, List.nodup_cons] at hnd
    rcases List.mem_cons.mp h with h1 | h1
    · rw [Prod.mk.injEq] at h1
      obtain ⟨hk, hcs⟩ := h1
      subst hk
      subst hcs
      simp [rmLookup]
    · have hk : k1 ≠ k := by
        rintro rfl
        exact hnd.1 (List.mem_map.mpr ⟨(k1, cs), h1, rfl⟩)
      simpa [rmLookup, hk] using ih hnd.2 h1

theorem mem_of_lookup {rm : List (α × List Cell)} {k : α}
    (h : k ∈ rm.map Prod.fst) : (k, rmLookup rm k) ∈ rm := by
  induction rm with
  | nil => simp at h
  | cons p rest ih =>
    obtain ⟨k1, cs1⟩ := p
    by_cases he : k1 = k
    · subst he
      simp [rmLookup]
    · simp only [rmLookup, if_neg he]
      refine List.mem_cons_of_mem _ (ih ?_)
      simp only [List.map_cons, List.mem_cons] at h
      rcases h with h | h
      · exact absurd h.symm he
      · exact h

theorem rmLookup_fold (m : List (List α)) (l : List Cell) (rm : List (α × List Cell)) (k : α) :
    rmLookup (l.foldl (fun rm c => rmapInsert rm (matAt m c) c) rm) k =
      rmLookup rm k ++ l.filter (fun c => decide (matAt m c = k)) := by
  induction l generalizing rm with
  | nil => simp
  | cons c cs ih =>
    rw [List.foldl_cons, ih, rmLookup_rmapInsert, List.filter_cons]
    by_cases h : matAt m c = k
    · rw [if_pos h.symm]
      simp [h, List.append_assoc]
    · rw [if_neg (Ne.symm h)]
      simp [h]

theorem keys_fold_mem (m : List (List α)) (l : List Cell) (rm : List (α × List Cell)) (k : α) :
    k ∈ (l.foldl (fun rm c => rmapInsert rm (matAt m c) c) rm).map Prod.fst ↔
      k ∈ rm.map Prod.fst ∨ ∃ c ∈ l, matAt m c = k := by
  induction l generalizing rm with
  | nil => simp
  | cons c cs ih =>
    rw [List.foldl_cons, ih]
    constructor
    · rintro (h | h)
      · rw [keys_rmapInsert] at h
        split_ifs at h with hm
        · exact Or.inl h
        · rcases List.mem_append.mp h with h | h
          · exact Or.inl h
          · rw [List.mem_singleton] at h
            exact Or.inr ⟨c, List.mem_cons_self .., h.symm⟩
      · obtain ⟨d, hd, he⟩ := h
        exact Or.inr ⟨d, List.mem_cons_of_mem _ hd, he⟩
    · rintro (h | ⟨d, hd, he⟩)
      · left
        rw [keys_rmapInsert]
        split_ifs with hm
        · exact h
        · exact List.mem_append_left _ h
      · rcases List.mem_cons.mp hd with rfl | hd2
        · left
          rw [keys_rmapInsert]
          split_ifs with hm
          · exact he ▸ hm
          · exact List.mem_append_right _ (by simp [he])
        · exact Or.inr ⟨d, hd2, he⟩

theorem nodup_keys_fold (m : List (List α)) (l : List Cell) (rm : List (α × List Cell))
    (hnd : (rm.map Prod.fst).Nodup) :
    ((l.foldl (fun rm c => rmapInsert rm (matAt m c) c) rm).map Prod.fst).Nodup := by
  induction l generalizing rm with
  | nil => simpa
  | cons c cs ih => exact ih _ (nodup_keys_rmapInsert _ _ hnd)

theorem region_map_keys_nodup (m : List (List α)) :
    ((region_map_from_matrix m).map Prod.fst).Nodup :=
  nodup_keys_fold m _ [] (by simp)

theorem rmLookup_region_map (m : List (List α)) (k : α) :
    rmLookup (region_map_from_matrix m) k =
      (scanCells (m.headD []).length m.length).filter (fun c => decide (matAt m c = k)) := by
  unfold region_map_from_matrix
  rw [rmLookup_fold]
  simp [rmLookup]

theorem mem_region_map_keys {m : List (List α)} {k : α} :
    k ∈ (region_map_from_matrix m).map Prod.fst ↔
      ∃ c : Cell, c.1 < (m.headD []).length ∧ c.2 < m.length ∧ matAt m c = k := by
  unfold region_map_from_matrix
  rw [keys_fold_mem]
  constructor
  · rintro (h | ⟨c, hc, he⟩)
    · simp [rmLookup] at h
    · exact ⟨c, (mem_scanCells.mp hc).1, (mem_scanCells.mp hc).2, he⟩
  · rintro ⟨c, h1, h2, he⟩
    exact Or.inr ⟨c, mem_scanCells.mpr ⟨h1, h2⟩, he⟩

theorem entry_cells_spec {m : List (List α)} {k : α} {cs : List Cell}
    (h : (k, cs) ∈ region_map_from_matrix m) :
    cs = (scanCells (m.headD []).length m.length).filter (fun c => decide (matAt m c = k)) := by
  have he := rmLookup_of_mem (region_map_keys_nodup m) h
  rw [← he, rmLookup_region_map]

theorem mem_entry_cells {m : List (List α)} {k : α} {cs : List Cell} {c : Cell}
    (h : (k, cs) ∈ region_map_from_matrix m) (hc : c ∈ cs) :
    c.1 < (m.headD []).length ∧ c.2 < m.length ∧ matAt m c = k := by
  rw [entry_cells_spec h] at hc
  rw [List.mem_filter] at hc
  exact ⟨(mem_scanCells.mp hc.1).1, (mem_scanCells.mp hc.1).2, by simpa using hc.2⟩

end RegionMapLemmas

theorem erase_append_self {β : Type} [BEq β] [LawfulBEq β] {a : β} {l : List β} (h : a ∉ l) :
    (l ++ [a]).erase a = l := by
  rw [List.erase_append_right _ h, List.erase_cons_head, List.append_nil]

theorem loopGen_main {α : Type} (W H : Nat) (limit : Option Nat)
    (rest : List (α × List Cell)) (recur : GState → GState)
    (hrec : ∀ st : GState, SyncG st →
      ((recur st).taken_rows = st.taken_rows ∧ (recur st).taken_cols = st.taken_cols ∧
        (recur st).occupied = st.occupied) ∧
      (∀ w, st.one_solution = some w → (recur st).one_solution = some w) ∧
      (∀ w, (recur st).one_solution = some w →
        st.one_solution = some w ∨ Completes W H st.occupied rest w)) :
    ∀ (cs : List Cell) (st : GState), SyncG st →
      ((loopGen W H limit recur cs st).taken_rows = st.taken_rows ∧
        (loopGen W H limit recur cs st).taken_cols = st.taken_cols ∧
        (loopGen W H limit recur cs st).occupied = st.occupied) ∧
      (∀ w, st.one_solution = some w → (loopGen W H limit recur cs st).one_solution = some w) ∧
      (∀ w, (loopGen W H limit recur cs st).one_solution = some w →
        st.one_solution = some w ∨
          ∃ c ∈ cs, conflictFree W H st.occupied c ∧
            Completes W H (st.occupied ++ [c]) rest w) := by
  intro cs
  induction cs with
  | nil =>
    intro st hst
    exact ⟨⟨rfl, rfl, rfl⟩, fun w h => h, fun w h => Or.inl h⟩
  | cons c cs ih =>
    obtain ⟨x, y⟩ := c
    intro st hst
    obtain ⟨hrow, hcol⟩ := hst
    simp only [loopGen]
    split_ifs with hskip hadj hlim
    · obtain ⟨hf, hs, hp⟩ := ih st ⟨hrow, hcol⟩
      refine ⟨hf, hs, fun w hw => ?_⟩
      rcases hp w hw with h | ⟨c0, hc0, hfree, hcomp⟩
      · exact Or.inl h
      · exact Or.inr ⟨c0, List.mem_cons_of_mem _ hc0, hfree, hcomp⟩
    · obtain ⟨hf, hs, hp⟩ := ih st ⟨hrow, hcol⟩
      refine ⟨hf, hs, fun w hw => ?_⟩
      rcases hp w hw with h | ⟨c0, hc0, hfree, hcomp⟩
      · exact Or.inl h
      · exact Or.inr ⟨c0, List.mem_cons_of_mem _ hc0, hfree, hcomp⟩
    · -- place branch, limit reached after the undo: return st3
      have hyn : y ∉ st.taken_rows := fun hmem => hskip (Or.inl hmem)
      have hxn : x ∉ st.taken_cols := fun hmem => hskip (Or.inr hmem)
      have hnotocc : (x, y) ∉ st.occupied := fun hmem =>
        hxn (hcol ▸ List.mem_map.mpr ⟨(x, y), hmem, rfl⟩)
      have hsync1 : SyncG (place st x y) := by
        constructor <;> simp [place, hrow, hcol]
      obtain ⟨⟨h2r, h2c, h2o⟩, h2s, h2p⟩ := hrec (place st x y) hsync1
      have hfree : conflictFree W H st.occupied (x, y) :=
        ⟨hrow ▸ hyn, hcol ▸ hxn, hadj⟩
      refine ⟨⟨?_, ?_, ?_⟩, ?_, ?_⟩
      · rw [unplace, h2r]
        exact erase_append_self hyn
      · rw [unplace, h2c]
        exact erase_append_self hxn
      · show ((recur (place st x y)).occupied).erase (x, y) = st.occupied
        rw [h2o]
        exact erase_append_self hnotocc
      · intro w hw
        exact h2s w hw
      · intro w hw
        rcases h2p w hw with h | h
        · exact Or.inl h
        · exact Or.inr ⟨(x, y), List.mem_cons_self .., hfree, h⟩
    · -- place branch, loop continues on st3
      have hyn : y ∉ st.taken_rows := fun hmem => hskip (Or.inl hmem)
      have hxn : x ∉ st.taken_cols := fun hmem => hskip (Or.inr hmem)
      have hnotocc : (x, y) ∉ st.occupied := fun hmem =>
        hxn (hcol ▸ List.mem_map.mpr ⟨(x, y), hmem, rfl⟩)
      have hsync1 : SyncG (place st x y) := by
        constructor <;> simp [place, hrow, hcol]
      obtain ⟨⟨h2r, h2c, h2o⟩, h2s, h2p⟩ := hrec (place st x y) hsync1
      have hfree : conflictFree W H st.occupied (x, y) :=
        ⟨hrow ▸ hyn, hcol ▸ hxn, hadj⟩
      have h3r : (unplace (recur (place st x y)) x y).taken_rows = st.taken_rows := by
        rw [unplace, h2r]
        exact erase_append_self hyn
      have h3c : (unplace (recur (place st x y)) x y).taken_cols = st.taken_cols := by
        rw [unplace, h2c]
        exact erase_append_self hxn
      have h3o : (unplace (recur (place st x y)) x y).occupied = st.occupied := by
        show ((recur (place st x y)).occupied).erase (x, y) = st.occupied
        rw [h2o]
        exact erase_append_self hnotocc
      have h3one : (unplace (recur (place st x y)) x y).one_solution =
          (recur (place st x y)).one_solution := rfl
      have hsync3 : SyncG (unplace (recur (place st x y)) x y) := by
        constructor
        · rw [h3r, h3o]
          exact hrow
        · rw [h3c, h3o]
          exact hcol
      obtain ⟨⟨hfr, hfc, hfo⟩, hfs, hfp⟩ := ih _ hsync3
      refine ⟨⟨?_, ?_, ?_⟩, ?_, ?_⟩
      · rw [hfr, h3r]
      · rw [hfc, h3c]
      · rw [hfo, h3o]
      · intro w hw
        exact hfs w (h3one ▸ h2s w hw)
      · intro w hw
        rcases hfp w hw with h | ⟨c0, hc0, hfree0, hcomp0⟩
        · rw [h3one] at h
          rcases h2p w h with h | h
          · exact Or.inl h
          · exact Or.inr ⟨(x, y), List.mem_cons_self .., hfree, h⟩
        · rw [h3o] at hfree0 hcomp0
          exact Or.inr ⟨c0, List.mem_cons_of_mem _ hc0, hfree0, hcomp0⟩

theorem backtrackGen_main {α : Type} (W H : Nat) (limit : Option Nat) :
    ∀ (ids : List (α × List Cell)) (st : GState), SyncG st →
      ((backtrackGen W H limit ids st).taken_rows = st.taken_rows ∧
        (backtrackGen W H limit ids st).taken_cols = st.taken_cols ∧
        (backtrackGen W H limit ids st).occupied = st.occupied) ∧
      (∀ w, st.one_solution = some w → (backtrackGen W H limit ids st).one_solution = some w) ∧
      (∀ w, (backtrackGen W H limit ids st).one_solution = some w →
        st.one_solution = some w ∨ Completes W H st.occupied ids w) := by
  intro ids
  induction ids with
  | nil =>
    intro st hst
    simp only [backtrackGen]
    split_ifs with hlim
    · exact ⟨⟨rfl, rfl, rfl⟩, fun w h => h, fun w h => Or.inl h⟩
    · refine ⟨⟨rfl, rfl, rfl⟩, ?_, ?_⟩
      · intro w hw
        simp [recordGen, hw]
      · intro w hw
        simp only [recordGen] at hw
        cases hone : st.one_solution with
        | none =>
          rw [hone] at hw
          right
          obtain rfl : st.occupied = w := by simpa using hw
          exact Completes.nil st.occupied
        | some w0 =>
          rw [hone] at hw
          refine Or.inl ?_
          simpa using hw
  | cons e rest ih =>
    obtain ⟨rid, cells⟩ := e
    intro st hst
    simp only [backtrackGen]
    split_ifs with hlim
    · exact ⟨⟨rfl, rfl, rfl⟩, fun w h => h, fun w h => Or.inl h⟩
    · obtain ⟨hf, hs, hp⟩ :=
        loopGen_main W H limit rest (backtrackGen W H limit rest)
          (fun st2 hst2 => ih st2 hst2) cells st hst
      refine ⟨hf, hs, fun w hw => ?_⟩
      rcases hp w hw with h | ⟨c0, hc0, hfree, hcomp⟩
      · exact Or.inl h
      · exact Or.inr (Completes.cons rid c0 hc0 hfree hcomp)

theorem loopGen_count {α : Type} (W H : Nat) (limit : Option Nat)
    (rest : List (α × List Cell)) (recur : GState → GState)
    (hrecF : ∀ st : GState, SyncG st →
      (recur st).taken_rows = st.taken_rows ∧ (recur st).taken_cols = st.taken_cols ∧
        (recur st).occupied = st.occupied)
    (hrecC : ∀ st : GState, SyncG st →
      (limit = none → (recur st).solutions = st.solutions + countSols W H rest st.occupied) ∧
      (∀ k, limit = some k → st.solutions ≤ k →
        (recur st).solutions = min (st.solutions + countSols W H rest st.occupied) k)) :
    ∀ (cs : List Cell) (st : GState), SyncG st →
      (limit = none → (loopGen W H limit recur cs st).solutions =
        st.solutions + sumCands W H (countSols W H rest) cs st.occupied) ∧
      (∀ k, limit = some k → st.solutions ≤ k →
        (loopGen W H limit recur cs st).solutions =
          min (st.solutions + sumCands W H (countSols W H rest) cs st.occupied) k) := by
  intro cs
  induction cs with
  | nil =>
    intro st hst
    constructor
    · intro _
      simp [loopGen, sumCands]
    · intro k _ hle
      simp only [loopGen, sumCands]
      omega
  | cons c cs ih =>
    obtain ⟨x, y⟩ := c
    intro st hst
    obtain ⟨hrow, hcol⟩ := hst
    simp only [loopGen]
    split_ifs with hskip hadj hlim
    · -- row/col skip: the candidate is not conflict-free
      have hnfree : ¬conflictFree W H st.occupied (x, y) := by
        intro hfree
        rcases hskip with h | h
        · exact hfree.1 (hrow ▸ h)
        · exact hfree.2.1 (hcol ▸ h)
      have hs := ih st ⟨hrow, hcol⟩
      constructor
      · intro hl
        rw [hs.1 hl]
        simp [sumCands, hnfree]
      · intro k hl hle
        rw [hs.2 k hl hle]
        simp [sumCands, hnfree]
    · have hnfree : ¬conflictFree W H st.occupied (x, y) := fun hfree => hfree.2.2 hadj
      have hs := ih st ⟨hrow, hcol⟩
      constructor
      · intro hl
        rw [hs.1 hl]
        simp [sumCands, hnfree]
      · intro k hl hle
        rw [hs.2 k hl hle]
        simp [sumCands, hnfree]
    · -- place branch, limit reached after the undo: only possible with some k
      have hyn : y ∉ st.taken_rows := fun hmem => hskip (Or.inl hmem)
      have hxn : x ∉ st.taken_cols := fun hmem => hskip (Or.inr hmem)
      have hfree : conflictFree W H st.occupied (x, y) :=
        ⟨hrow ▸ hyn, hcol ▸ hxn, hadj⟩
      have hsync1 : SyncG (place st x y) := by
        constructor <;> simp [place, hrow, hcol]
      have hsol1 : (place st x y).solutions = st.solutions := rfl
      have hocc1 : (place st x y).occupied = st.occupied ++ [(x, y)] := rfl
      have hsol3 : (unplace (recur (place st x y)) x y).solutions =
          (recur (place st x y)).solutions := rfl
      constructor
      · intro hl
        subst hl
        simp only [limitHit] at hlim
      · intro k hl hle
        subst hl
        simp only [limitHit] at hlim
        have h2 := ((hrecC (place st x y) hsync1).2 k rfl (by rw [hsol1]; exact hle))
        rw [hsol1, hocc1] at h2
        rw [hsol3, h2] at hlim ⊢
        simp only [sumCands, if_pos hfree]
        omega
    · -- place branch, loop continues on the restored state
      have hyn : y ∉ st.taken_rows := fun hmem => hskip (Or.inl hmem)
      have hxn : x ∉ st.taken_cols := fun hmem => hskip (Or.inr hmem)
      have hnotocc : (x, y) ∉ st.occupied := fun hmem =>
        hxn (hcol ▸ List.mem_map.mpr ⟨(x, y), hmem, rfl⟩)
      have hfree : conflictFree W H st.occupied (x, y) :=
        ⟨hrow ▸ hyn, hcol ▸ hxn, hadj⟩
      have hsync1 : SyncG (place st x y) := by
        constructor <;> simp [place, hrow, hcol]
      obtain ⟨h2r, h2c, h2o⟩ := hrecF (place st x y) hsync1
      have hsol1 : (place st x y).solutions = st.solutions := rfl
      have hocc1 : (place st x y).occupied = st.occupied ++ [(x, y)] := rfl
      have h3r : (unplace (recur (place st x y)) x y).taken_rows = st.taken_rows := by
        rw [unplace, h2r]
        exact erase_append_self hyn
      have h3c : (unplace (recur (place st x y)) x y).taken_cols = st.taken_cols := by
        rw [unplace, h2c]
        exact erase_append_self hxn
      have h3o : (unplace (recur (place st x y)) x y).occupied = st.occupied := by
        show ((recur (place st x y)).occupied).erase (x, y) = st.occupied
        rw [h2o, hocc1]
        exact erase_append_self hnotocc
      have hsol3 : (unplace (recur (place st x y)) x y).solutions =
          (recur (place st x y)).solutions := rfl
      have hsync3 : SyncG (unplace (recur (place st x y)) x y) := by
        constructor
        · rw [h3r, h3o]
          exact hrow
        · rw [h3c, h3o]
          exact hcol
      have hih := ih _ hsync3
      constructor
      · intro hl
        subst hl
        have h2 := (hrecC (place st x y) hsync1).1 rfl
        rw [hsol1, hocc1] at h2
        rw [hih.1 rfl, hsol3, h2, h3o]
        simp only [sumCands, if_pos hfree]
        omega
      · intro k hl hle
        subst hl
        simp only [limitHit] at hlim
        have h2 := ((hrecC (place st x y) hsync1).2 k rfl (by rw [hsol1]; exact hle))
        rw [hsol1, hocc1] at h2
        have hlt : (unplace (recur (place st x y)) x y).solutions < k := by omega
        have heq : (unplace (recur (place st x y)) x y).solutions =
            st.solutions + countSols W H rest (st.occupied ++ [(x, y)]) := by
          rw [hsol3, h2]
          omega
        rw [hih.2 k rfl (le_of_lt hlt), heq, h3o]
        simp only [sumCands, if_pos hfree]
        omega

theorem backtrackGen_count {α : Type} (W H : Nat) (limit : Option Nat) :
    ∀ (ids : List (α × List Cell)) (st : GState), SyncG st →
      (limit = none → (backtrackGen W H limit ids st).solutions =
        st.solutions + countSols W H ids st.occupied) ∧
      (∀ k, limit = some k → st.solutions ≤ k →
        (backtrackGen W H limit ids st).solutions =
          min (st.solutions + countSols W H ids st.occupied) k) := by
  intro ids
  induction ids with
  | nil =>
    intro st hst
    constructor
    · intro hl
      subst hl
      simp only [backtrackGen]
      rw [if_neg (by simp [limitHit])]
      simp [recordGen, countSols]
    · intro k hl hle
      subst hl
      simp only [backtrackGen]
      by_cases hlim : limitHit (some k) st.solutions
      · rw [if_pos hlim]
        simp only [limitHit] at hlim
        simp only [countSols]
        omega
      · rw [if_neg hlim]
        simp only [limitHit] at hlim
        simp only [recordGen, countSols]
        omega
  | cons e rest ih =>
    obtain ⟨rid, cells⟩ := e
    intro st hst
    have hrecF : ∀ st2 : GState, SyncG st2 →
        (backtrackGen W H limit rest st2).taken_rows = st2.taken_rows ∧
        (backtrackGen W H limit rest st2).taken_cols = st2.taken_cols ∧
        (backtrackGen W H limit rest st2).occupied = st2.occupied :=
      fun st2 h2 => (backtrackGen_main W H limit rest st2 h2).1
    have hloop := loopGen_count W H limit rest (backtrackGen W H limit rest) hrecF
      (fun st2 h2 => ih st2 h2) cells st hst
    constructor
    · intro hl
      subst hl
      simp only [backtrackGen]
      rw [if_neg (by simp [limitHit])]
      exact hloop.1 rfl
    · intro k hl hle
      subst hl
      simp only [backtrackGen]
      by_cases hlim : limitHit (some k) st.solutions
      · rw [if_pos hlim]
        simp only [limitHit] at hlim
        have hcnt : countSols W H ((rid, cells) :: rest) st.occupied =
            sumCands W H (countSols W H rest) cells st.occupied := rfl
        omega
      · rw [if_neg hlim]
        exact hloop.2 k rfl hle

theorem solve_count_none {α : Type} [DecidableEq α] [Inhabited α] (m : List (List α)) :
    (solver_count_and_one_solution_from_regions m none).1 =
      countSols (m.headD []).length m.length (region_map_from_matrix m) [] := by
  have h := (backtrackGen_count (m.headD []).length m.length none
    (region_map_from_matrix m) ⟨0, none, [], [], []⟩ ⟨rfl, rfl⟩).1 rfl
  simpa [solver_count_and_one_solution_from_regions] using h

theorem solve_count_some {α : Type} [DecidableEq α] [Inhabited α] (m : List (List α)) (k : Nat) :
    (solver_count_and_one_solution_from_regions m (some k)).1 =
      min (countSols (m.headD []).length m.length (region_map_from_matrix m) []) k := by
  have h := (backtrackGen_count (m.headD []).length m.length (some k)
    (region_map_from_matrix m) ⟨0, none, [], [], []⟩ ⟨rfl, rfl⟩).2 k rfl (Nat.zero_le k)
  simpa [solver_count_and_one_solution_from_regions] using h

theorem getD_set_self2 {β : Type} {l : List β} {i : Nat} (h : i < l.length) (a d : β) :
    (l.set i a).getD i d = a := by
  rw [List.getD_eq_getElem?_getD, List.getElem?_set_self h]
  rfl

theorem getD_set_ne2 {β : Type} {l : List β} {i j : Nat} (h : i ≠ j) (a d : β) :
    (l.set i a).getD j d = l.getD j d := by
  rw [List.getD_eq_getElem?_getD, List.getElem?_set_ne h, ← List.getD_eq_getElem?_getD]

theorem matShape_matSet {W H : Nat} {mat : List (List (Option Nat))}
    (hm : matShape W H mat) (c : Cell) (r : Nat) : matShape W H (matSet mat c r) := by
  obtain ⟨h1, h2⟩ := hm
  by_cases hc : c.2 < mat.length
  · constructor
    · simpa [matSet] using h1
    · intro row hrow
      rcases List.mem_or_eq_of_mem_set hrow with h | h
      · exact h2 row h
      · subst h
        rw [List.length_set]
        have : mat.getD c.2 [] = mat[c.2] := List.getD_eq_getElem mat [] hc
        rw [this]
        exact h2 _ (List.getElem_mem hc)
  · unfold matSet
    rw [List.set_eq_of_length_le (by omega)]
    exact ⟨h1, h2⟩

theorem matAt_matSet_self {W H : Nat} {mat : List (List (Option Nat))}
    (hm : matShape W H mat) {c : Cell} (hc : c.1 < W ∧ c.2 < H) (r : Nat) :
    matAt (matSet mat c r) c = some r := by
  obtain ⟨h1, h2⟩ := hm
  have hylt : c.2 < mat.length := by omega
  have hrowlen : (mat.getD c.2 []).length = W := by
    rw [List.getD_eq_getElem mat [] hylt]
    exact h2 _ (List.getElem_mem hylt)
  have hx : c.1 < (mat.getD c.2 []).length := by omega
  unfold matAt matSet
  rw [getD_set_self2 hylt]
  exact getD_set_self2 hx _ _

theorem matAt_matSet_other {mat : List (List (Option Nat))} {c c' : Cell}
    (h : c' ≠ c) (r : Nat) : matAt (matSet mat c r) c' = matAt mat c' := by
  unfold matAt matSet
  by_cases hy : c'.2 = c.2
  · have hx : c'.1 ≠ c.1 := by
      intro hx
      exact h (Prod.ext hx hy)
    rw [hy]
    by_cases hlt : c.2 < mat.length
    · rw [getD_set_self2 hlt]
      exact getD_set_ne2 (fun he => hx he.symm) _ _
    · rw [List.set_eq_of_length_le (by omega)]
  · rw [getD_set_ne2 (fun he => hy he.symm)]

theorem matAt_some_bounds {W H : Nat} {mat : List (List (Option Nat))} (hm : matShape W H mat)
    {c : Cell} {r : Nat} (h : matAt mat c = some r) : c.1 < W ∧ c.2 < H := by
  obtain ⟨h1, h2⟩ := hm
  by_cases hy : c.2 < mat.length
  · have hrowlen : (mat.getD c.2 []).length = W := by
      rw [List.getD_eq_getElem mat [] hy]
      exact h2 _ (List.getElem_mem hy)
    by_cases hx : c.1 < W
    · exact ⟨hx, by omega⟩
    · unfold matAt at h
      rw [List.getD_eq_default (mat.getD c.2 []) default (by omega)] at h
      simp at h
  · unfold matAt at h
    rw [List.getD_eq_default mat [] (by omega)] at h
    simp [List.getD] at h

theorem mono_matSet {mat : List (List (Option Nat))} {c : Cell}
    (h : matAt mat c = none) (r : Nat) :
    ∀ c' r', matAt mat c' = some r' → matAt (matSet mat c r) c' = some r' := by
  intro c' r' h'
  rcases eq_or_ne c' c with rfl | hne
  · rw [h'] at h
    simp at h
  · rw [matAt_matSet_other hne]
    exact h'

theorem getD_enqueue_self {qs : List (List Cell)} {rid : Nat} (h : rid < qs.length) (c : Cell) :
    (enqueue qs rid c).getD rid [] = qs.getD rid [] ++ [c] :=
  getD_set_self2 h _ _

theorem getD_enqueue_ne {qs : List (List Cell)} {rid r' : Nat} (h : rid ≠ r') (c : Cell) :
    (enqueue qs rid c).getD r' [] = qs.getD r' [] :=
  getD_set_ne2 h _ _

theorem length_enqueue (qs : List (List Cell)) (rid : Nat) (c : Cell) :
    (enqueue qs rid c).length = qs.length :=
  List.length_set ..

theorem sum_map_length_set {qs : List (List Cell)} {i : Nat} (h : i < qs.length) (l : List Cell) :
    (((qs.set i l).map List.length).sum + (qs.getD i []).length =
      (qs.map List.length).sum + l.length) := by
  induction qs generalizing i with
  | nil => simp at h
  | cons q rest ih =>
    cases i with
    | zero =>
      simp only [List.set_cons_zero, List.map_cons, List.sum_cons, List.getD_cons_zero]
      omega
    | succ i =>
      simp only [List.set_cons_succ, List.map_cons, List.sum_cons, List.getD_cons_succ]
      have := ih (by simpa using Nat.lt_of_succ_lt_succ h)
      omega

theorem queueSum_enqueue {qs : List (List Cell)} {rid : Nat} (h : rid < qs.length) (c : Cell) :
    ((enqueue qs rid c).map List.length).sum = (qs.map List.length).sum + 1 := by
  have := sum_map_length_set h (qs.getD rid [] ++ [c])
  unfold enqueue
  simp only [List.length_append, List.length_singleton] at this ⊢
  omega

theorem filter_length_flip {l : List Cell} (hnd : l.Nodup) {c : Cell} (hc : c ∈ l)
    {p q : Cell → Bool} (hpc : p c = true) (hqc : q c = false)
    (hother : ∀ x ∈ l, x ≠ c → q x = p x) :
    (l.filter q).length + 1 = (l.filter p).length := by
  induction l with
  | nil => simp at hc
  | cons a t ih =>
    rw [List.nodup_cons] at hnd
    rcases List.mem_cons.mp hc with rfl | hct
    · rw [List.filter_cons, List.filter_cons, hpc, hqc]
      have heq : t.filter q = t.filter p :=
        List.filter_congr fun x hx =>
          hother x (List.mem_cons_of_mem _ hx) (fun he => hnd.1 (he ▸ hx))
      simp [heq]
    · have ha : a ≠ c := fun he => hnd.1 (he ▸ hct)
      rw [List.filter_cons, List.filter_cons, hother a (List.mem_cons_self ..) ha]
      have hrec := ih hnd.2 hct fun x hx hxc => hother x (List.mem_cons_of_mem _ hx) hxc
      by_cases hpa : p a = true
      · simp only [hpa, if_true, List.length_cons]
        omega
      · simp only [Bool.not_eq_true] at hpa
        simp only [hpa, Bool.false_eq_true, if_false]
        exact hrec

theorem Reach4.mono {W H : Nat} {P Q : Cell → Prop} (h : ∀ c, P c → Q c) {s c : Cell}
    (hr : Reach4 W H P s c) : Reach4 W H Q s c := by
  induction hr with
  | refl => exact .refl
  | step h1 h2 h3 ih => exact .step ih h2 (h _ h3)

theorem ne_none_of_mono {mat mat2 : List (List (Option Nat))}
    (hmono : ∀ c r, matAt mat c = some r → matAt mat2 c = some r) {c : Cell}
    (h : matAt mat c ≠ none) : matAt mat2 c ≠ none := by
  cases hm : matAt mat c with
  | none => exact absurd hm h
  | some r =>
    rw [hmono c r hm]
    simp

theorem claimStep_inv {W H n : Nat} {seeds : List Cell} {st : VState}
    (inv : VInv0 W H n seeds st) {rid : Nat} (hrid : rid < n) {c : Cell}
    (hc : matAt st.mat c = some rid) {c0 : Cell} (hpe : ProcessedExc W H c0 st)
    {d : Int × Int} (hd : d ∈ dirs4) :
    VInv0 W H n seeds (claimStep W H rid c st d) ∧
    ProcessedExc W H c0 (claimStep W H rid c st d) ∧
    (∀ c' r', matAt st.mat c' = some r' → matAt (claimStep W H rid c st d).mat c' = some r') ∧
    (∀ r', r' ≠ rid → (claimStep W H rid c st d).queues.getD r' [] = st.queues.getD r' []) ∧
    (∃ t, (claimStep W H rid c st d).queues.getD rid [] = st.queues.getD rid [] ++ t) ∧
    (claimStep W H rid c st d).active = st.active := by
  simp only [claimStep]
  split_ifs with h
  case neg => exact ⟨inv, hpe, fun _ _ h => h, fun _ _ => rfl, ⟨[], by simp⟩, rfl⟩
  case pos =>
    obtain ⟨hin, hnone⟩ := h
    set tgt : Cell := (((c.1 : Int) + d.1).toNat, ((c.2 : Int) + d.2).toNat) with htgt
    have htg : tgt.1 < W ∧ tgt.2 < H := by
      rw [htgt]
      unfold in_bounds at hin
      constructor <;> omega
    have hmono : ∀ c' r', matAt st.mat c' = some r' → matAt (matSet st.mat tgt rid) c' = some r' :=
      mono_matSet hnone rid
    have hself : matAt (matSet st.mat tgt rid) tgt = some rid := matAt_matSet_self inv.mshape htg rid
    have hqL : rid < st.queues.length := by
      rw [inv.qlen]
      exact hrid
    have hinv2 : ∀ c' r', matAt (matSet st.mat tgt rid) c' = some r' →
        (c' = tgt ∧ r' = rid) ∨ matAt st.mat c' = some r' := by
      intro c' r' h'
      rcases eq_or_ne c' tgt with rfl | hne
      · rw [hself] at h'
        left
        exact ⟨rfl, by injection h'.symm⟩
      · right
        rwa [matAt_matSet_other hne] at h'
    have htnb : tgt ∈ neighbors4 c.1 c.2 W H := by
      rw [mem_neighbors4]
      refine ⟨htg.1, htg.2, ?_⟩
      have hd4 : (d.1 = 1 ∧ d.2 = 0) ∨ (d.1 = -1 ∧ d.2 = 0) ∨ (d.1 = 0 ∧ d.2 = 1) ∨
          (d.1 = 0 ∧ d.2 = -1) := by
        obtain ⟨d1, d2⟩ := d
        simp only [dirs4, List.mem_cons, Prod.mk.injEq, List.not_mem_nil, or_false] at hd
        omega
      rw [htgt]
      simp only [Nat.dist]
      unfold in_bounds at hin
      omega
    have hnotH : tgt ∉ st.history := fun hmem => inv.histCl tgt hmem hnone
    refine ⟨?_, ?_, fun c' r' h' => hmono c' r' h', fun r' hne => getD_enqueue_ne (Ne.symm hne) _,
      ⟨[tgt], getD_enqueue_self hqL tgt⟩, rfl⟩
    · constructor
      · exact matShape_matSet inv.mshape tgt rid
      · rw [length_enqueue]
        exact inv.qlen
      · intro rid2 hrid2 c2 hc2
        rcases eq_or_ne rid2 rid with rfl | hne
        · rw [getD_enqueue_self hqL] at hc2
          rcases List.mem_append.mp hc2 with h2 | h2
          · exact hmono c2 rid2 (inv.qcells rid2 hrid2 c2 h2)
          · rw [List.mem_singleton] at h2
            subst h2
            exact hself
        · rw [getD_enqueue_ne (Ne.symm hne)] at hc2
          exact hmono c2 rid2 (inv.qcells rid2 hrid2 c2 hc2)
      · intro c2 r2 h2
        rcases hinv2 c2 r2 h2 with ⟨rfl, rfl⟩ | h2
        · exact hrid
        · exact inv.matIds c2 r2 h2
      · intro i hi
        exact hmono _ i (inv.seedsCl i hi)
      · intro c2 r2 h2
        rcases hinv2 c2 r2 h2 with ⟨rfl, rfl⟩ | h2
        · exact Reach4.step ((inv.reach c _ hc).mono (fun z hz => hmono z _ hz)) htnb hself
        · exact (inv.reach c2 r2 h2).mono fun z hz => hmono z r2 hz
      · rw [List.nodup_append]
        exact ⟨inv.histNd, List.nodup_singleton _, fun a ha hb =>
          (List.mem_singleton.mp hb ▸ hnotH) ha⟩
      · intro c2 hc2
        rcases List.mem_append.mp hc2 with h2 | h2
        · exact ne_none_of_mono hmono (inv.histCl c2 h2)
        · rw [List.mem_singleton] at h2
          subst h2
          rw [hself]
          simp
      · exact inv.activeP
    · intro c2 r2 h2
      rcases hinv2 c2 r2 h2 with ⟨rfl, rfl⟩ | h2
      · right
        left
        rw [getD_enqueue_self hqL]
        exact List.mem_append_right _ (List.mem_singleton.mpr rfl)
      · rcases hpe c2 r2 h2 with h3 | h3 | h3
        · exact Or.inl h3
        · right
          left
          rcases eq_or_ne r2 rid with rfl | hne
          · rw [getD_enqueue_self hqL]
            exact List.mem_append_left _ h3
          · rw [getD_enqueue_ne (Ne.symm hne)]
            exact h3
        · right
          right
          intro d2 hd2
          exact ne_none_of_mono hmono (h3 d2 hd2)

theorem claimStep_measure {W H n rid : Nat} {seeds : List Cell} {c : Cell} {st : VState}
    (inv : VInv0 W H n seeds st) (hrid : rid < n) (d : Int × Int) :
    vmeasure W H (claimStep W H rid c st d) ≤ vmeasure W H st := by
  simp only [claimStep]
  split_ifs with h
  case neg => exact le_refl _
  case pos =>
    obtain ⟨hin, hnone⟩ := h
    set tgt : Cell := (((c.1 : Int) + d.1).toNat, ((c.2 : Int) + d.2).toNat) with htgt
    have htg : tgt.1 < W ∧ tgt.2 < H := by
      rw [htgt]
      unfold in_bounds at hin
      constructor <;> omega
    have hqL : rid < st.queues.length := by
      rw [inv.qlen]
      exact hrid
    have h1 : ((enqueue st.queues rid tgt).map List.length).sum =
        (st.queues.map List.length).sum + 1 := queueSum_enqueue hqL tgt
    have h2 : (((scanCells W H).filter fun x =>
          decide (matAt (matSet st.mat tgt rid) x = none)).length) + 1 =
        ((scanCells W H).filter fun x => decide (matAt st.mat x = none)).length := by
      refine filter_length_flip (scanCells_nodup W H) (mem_scanCells.mpr htg) ?_ ?_ ?_
      · simpa using hnone
      · simp [matAt_matSet_self inv.mshape htg]
      · intro x hx hxc
        simp [matAt_matSet_other hxc]
    simp only [vmeasure, queueSum, unclaimedCount]
    omega

theorem claimStep_claims {W H rid : Nat} {c : Cell} {st : VState} (d : Int × Int)
    (hin : in_bounds ((c.1 : Int) + d.1) ((c.2 : Int) + d.2) W H)
    (hm : matShape W H st.mat) :
    matAt (claimStep W H rid c st d).mat
      ((((c.1 : Int) + d.1).toNat, ((c.2 : Int) + d.2).toNat) : Cell) ≠ none := by
  simp only [claimStep]
  split_ifs with h
  · have htg : (((c.1 : Int) + d.1).toNat < W ∧ ((c.2 : Int) + d.2).toNat < H) := by
      unfold in_bounds at hin
      constructor <;> omega
    rw [matAt_matSet_self hm htg]
    simp
  · intro hcontra
    exact h ⟨hin, hcontra⟩

theorem neighbors4_as_dirs {W H : Nat} {c d' : Cell} (h : d' ∈ neighbors4 c.1 c.2 W H) :
    ∃ d ∈ dirs4, in_bounds ((c.1 : Int) + d.1) ((c.2 : Int) + d.2) W H ∧
      ((((c.1 : Int) + d.1).toNat, ((c.2 : Int) + d.2).toNat) : Cell) = d' := by
  rw [mem_neighbors4] at h
  obtain ⟨h1, h2, h3⟩ := h
  simp only [Nat.dist] at h3
  refine ⟨((d'.1 : Int) - c.1, (d'.2 : Int) - c.2), ?_, ?_, ?_⟩
  · simp only [dirs4, List.mem_cons, Prod.mk.injEq, List.not_mem_nil, or_false]
    omega
  · unfold in_bounds
    omega
  · refine Prod.ext ?_ ?_ <;> dsimp only <;> omega

theorem growFold_inv {W H n : Nat} {seeds : List Cell} {c0 : Cell} {c : Cell} {rid : Nat}
    (hrid : rid < n) :
    ∀ (ds : List (Int × Int)), (∀ d ∈ ds, d ∈ dirs4) →
      ∀ {st : VState}, VInv0 W H n seeds st → ProcessedExc W H c0 st →
      matAt st.mat c = some rid →
      VInv0 W H n seeds (ds.foldl (claimStep W H rid c) st) ∧
      ProcessedExc W H c0 (ds.foldl (claimStep W H rid c) st) ∧
      (∀ c' r', matAt st.mat c' = some r' →
        matAt (ds.foldl (claimStep W H rid c) st).mat c' = some r') ∧
      (∀ r', r' ≠ rid →
        (ds.foldl (claimStep W H rid c) st).queues.getD r' [] = st.queues.getD r' []) ∧
      vmeasure W H (ds.foldl (claimStep W H rid c) st) ≤ vmeasure W H st ∧
      (ds.foldl (claimStep W H rid c) st).active = st.active := by
  intro ds
  induction ds with
  | nil =>
    intro _ st inv hpe hc
    exact ⟨inv, hpe, fun _ _ h => h, fun _ _ => rfl, le_refl _, rfl⟩
  | cons d rest ih =>
    intro hds st inv hpe hc
    obtain ⟨inv1, hpe1, hmono1, hq1, hqapp1, hact1⟩ :=
      claimStep_inv inv hrid hc hpe (hds d (List.mem_cons_self ..))
    have hms1 := @claimStep_measure W H n rid seeds c st inv hrid d
    obtain ⟨inv2, hpe2, hmono2, hq2, hms2, hact2⟩ :=
      ih (fun d2 hd2 => hds d2 (List.mem_cons_of_mem _ hd2)) inv1 hpe1 (hmono1 c rid hc)
    rw [List.foldl_cons]
    refine ⟨inv2, hpe2, ?_, ?_, ?_, ?_⟩
    · intro c' r' h'
      exact hmono2 c' r' (hmono1 c' r' h')
    · intro r' hne
      rw [hq2 r' hne, hq1 r' hne]
    · exact le_trans hms2 hms1
    · rw [hact2, hact1]

theorem growFold_claims {W H n : Nat} {seeds : List Cell} {c0 : Cell} {c : Cell} {rid : Nat}
    (hrid : rid < n) :
    ∀ (ds : List (Int × Int)), (∀ d ∈ ds, d ∈ dirs4) →
      ∀ {st : VState}, VInv0 W H n seeds st → ProcessedExc W H c0 st →
      matAt st.mat c = some rid →
      ∀ d ∈ ds, in_bounds ((c.1 : Int) + d.1) ((c.2 : Int) + d.2) W H →
        matAt ((ds.foldl (claimStep W H rid c) st)).mat
          ((((c.1 : Int) + d.1).toNat, ((c.2 : Int) + d.2).toNat) : Cell) ≠ none := by
  intro ds
  induction ds with
  | nil =>
    intro _ st inv hpe hc d hd
    simp at hd
  | cons d1 rest ih =>
    intro hds st inv hpe hc d hd hin
    obtain ⟨inv1, hpe1, hmono1, _, _, _⟩ :=
      claimStep_inv inv hrid hc hpe (hds d1 (List.mem_cons_self ..))
    rw [List.foldl_cons]
    rcases List.mem_cons.mp hd with rfl | hd2
    · -- the head direction: claimed by its own claimStep, then kept by monotonicity
      have hcl := @claimStep_claims W H rid c st d hin inv.mshape
      obtain ⟨_, _, hmono2, _, _, _⟩ :=
        growFold_inv hrid rest (fun d2 hd2 => hds d2 (List.mem_cons_of_mem _ hd2))
          inv1 hpe1 (hmono1 c rid hc)
      exact ne_none_of_mono hmono2 hcl
    · exact ih (fun d2 h2 => hds d2 (List.mem_cons_of_mem _ h2)) inv1 hpe1
        (hmono1 c rid hc) d hd2 hin

theorem stepRid_inv {W H n : Nat} {seeds : List Cell} {st : VState}
    (inv : VInv0 W H n seeds st) (hproc : Processed W H st) {rid : Nat} (hrid : rid < n) :
    VInv0 W H n seeds (stepRid W H st rid) ∧ Processed W H (stepRid W H st rid) ∧
    (∀ c' r', matAt st.mat c' = some r' → matAt (stepRid W H st rid).mat c' = some r') ∧
    (∀ r', r' ≠ rid → (stepRid W H st rid).queues.getD r' [] = st.queues.getD r' []) ∧
    vmeasure W H (stepRid W H st rid) ≤ vmeasure W H st ∧
    (st.queues.getD rid [] ≠ [] → vmeasure W H (stepRid W H st rid) < vmeasure W H st) ∧
    (stepRid W H st rid).active = st.active := by
  rcases hq : st.queues.getD rid [] with _ | ⟨c, rest⟩
  · have hstep : stepRid W H st rid = st := by
      simp only [stepRid, hq]
    rw [hstep]
    exact ⟨inv, hproc, fun _ _ h => h, fun _ _ => rfl, le_refl _,
      fun hne => absurd rfl hne, rfl⟩
  · have hstep : stepRid W H st rid =
        dirs4.foldl (claimStep W H rid c) { st with queues := st.queues.set rid rest } := by
      simp only [stepRid, hq, growCell]
    rw [hstep]
    have hqL : rid < st.queues.length := by
      rw [inv.qlen]
      exact hrid
    have hcmem : c ∈ st.queues.getD rid [] := by
      rw [hq]
      exact List.mem_cons_self ..
    have hcm : matAt st.mat c = some rid := inv.qcells rid hrid c hcmem
    set st1 : VState := { st with queues := st.queues.set rid rest } with hst1
    have hst1q : ∀ r', st1.queues.getD r' [] =
        if r' = rid then rest else st.queues.getD r' [] := by
      intro r'
      rcases eq_or_ne r' rid with rfl | hne
      · rw [if_pos rfl]
        exact getD_set_self2 hqL _ _
      · rw [if_neg hne]
        exact getD_set_ne2 (Ne.symm hne) _ _
    have inv1 : VInv0 W H n seeds st1 := by
      refine ⟨inv.mshape, by simpa using inv.qlen, ?_, inv.matIds, inv.seedsCl, inv.reach,
        inv.histNd, inv.histCl, inv.activeP⟩
      intro rid2 hrid2 c2 hc2
      rw [hst1q] at hc2
      split_ifs at hc2 with he
      · subst he
        exact inv.qcells rid2 hrid2 c2 (by rw [hq]; exact List.mem_cons_of_mem _ hc2)
      · exact inv.qcells rid2 hrid2 c2 hc2
    have hpe1 : ProcessedExc W H c st1 := by
      intro c2 r2 h2
      rcases hproc c2 r2 h2 with h3 | h3
      · rcases eq_or_ne r2 rid with rfl | hne
        · rw [hq] at h3
          rcases List.mem_cons.mp h3 with rfl | h4
          · exact Or.inl rfl
          · right
            left
            rw [hst1q, if_pos rfl]
            exact h4
        · right
          left
          rw [hst1q, if_neg hne]
          exact h3
      · exact Or.inr (Or.inr h3)
    obtain ⟨inv2, hpe2, hmono2, hq2, hms2, hact2⟩ :=
      growFold_inv hrid dirs4 (fun _ h => h) inv1 hpe1 hcm
    have hmeas1 : vmeasure W H st1 + 1 = vmeasure W H st := by
      have := sum_map_length_set hqL rest
      rw [hq] at this
      simp only [vmeasure, queueSum, unclaimedCount, hst1]
      simp only [List.length_cons] at this
      omega
    refine ⟨inv2, ?_, hmono2, ?_, by omega, fun _ => by omega, by rw [hact2]⟩
    · intro c2 r2 h2
      rcases hpe2 c2 r2 h2 with rfl | h3 | h3
      · right
        intro d' hd'
        obtain ⟨d, hd, hin, htgt⟩ := neighbors4_as_dirs hd'
        rw [← htgt]
        exact growFold_claims hrid dirs4 (fun _ h => h) inv1 hpe1 hcm d hd hin
      · exact Or.inl h3
      · exact Or.inr h3
    · intro r' hne
      rw [hq2 r' hne, hst1q, if_neg hne]

theorem stepFold_inv {W H n : Nat} {seeds : List Cell} :
    ∀ (l : List Nat), (∀ r ∈ l, r < n) →
      ∀ {st : VState}, VInv0 W H n seeds st → Processed W H st →
      VInv0 W H n seeds (l.foldl (stepRid W H) st) ∧
      Processed W H (l.foldl (stepRid W H) st) ∧
      (∀ c' r', matAt st.mat c' = some r' → matAt (l.foldl (stepRid W H) st).mat c' = some r') ∧
      vmeasure W H (l.foldl (stepRid W H) st) ≤ vmeasure W H st ∧
      (l.foldl (stepRid W H) st).active = st.active := by
  intro l
  induction l with
  | nil =>
    intro _ st inv hproc
    exact ⟨inv, hproc, fun _ _ h => h, le_refl _, rfl⟩
  | cons r1 rest ih =>
    intro hl st inv hproc
    obtain ⟨inv1, hproc1, hmono1, _, hms1, _, hact1⟩ :=
      stepRid_inv inv hproc (hl r1 (List.mem_cons_self ..))
    obtain ⟨inv2, hproc2, hmono2, hms2, hact2⟩ :=
      ih (fun r hr => hl r (List.mem_cons_of_mem _ hr)) inv1 hproc1
    rw [List.foldl_cons]
    exact ⟨inv2, hproc2, fun c' r' h' => hmono2 c' r' (hmono1 c' r' h'),
      le_trans hms2 hms1, by rw [hact2, hact1]⟩

theorem stepFold_strict {W H n : Nat} {seeds : List Cell} :
    ∀ (l : List Nat), (∀ r ∈ l, r < n) → l.Nodup →
      ∀ {st : VState}, VInv0 W H n seeds st → Processed W H st →
      ∀ rid ∈ l, st.queues.getD rid [] ≠ [] →
      vmeasure W H (l.foldl (stepRid W H) st) < vmeasure W H st := by
  intro l
  induction l with
  | nil =>
    intro _ _ st _ _ rid hr
    simp at hr
  | cons r1 rest ih =>
    intro hl hnd st inv hproc rid hrid hne
    rw [List.nodup_cons] at hnd
    obtain ⟨inv1, hproc1, _, hq1, hms1, hstrict1, _⟩ :=
      stepRid_inv inv hproc (hl r1 (List.mem_cons_self ..))
    rw [List.foldl_cons]
    rcases List.mem_cons.mp hrid with rfl | hrid2
    · obtain ⟨_, _, _, hms2, _⟩ :=
        stepFold_inv rest (fun r hr => hl r (List.mem_cons_of_mem _ hr)) inv1 hproc1
      have := hstrict1 hne
      omega
    · have hner : r1 ≠ rid := fun he => hnd.1 (he ▸ hrid2)
      have hq : (stepRid W H st r1).queues.getD rid [] ≠ [] := by
        rw [hq1 rid (Ne.symm hner)]
        exact hne
      have := ih (fun r hr => hl r (List.mem_cons_of_mem _ hr)) hnd.2 inv1 hproc1 rid hrid2 hq
      omega

theorem roundStep_inv {W H n : Nat} {seeds : List Cell} {shuffle : Nat → List Nat → List Nat}
    (hsh : ∀ r l, (shuffle r l).Perm l) {st : VState}
    (inv : VInv0 W H n seeds st) (hproc : Processed W H st) :
    VInv0 W H n seeds (roundStep W H shuffle st) ∧ Processed W H (roundStep W H shuffle st) ∧
    (∀ c' r', matAt st.mat c' = some r' → matAt (roundStep W H shuffle st).mat c' = some r') ∧
    vmeasure W H (roundStep W H shuffle st) ≤ vmeasure W H st ∧
    ((∃ q ∈ st.queues, q ≠ []) → vmeasure W H (roundStep W H shuffle st) < vmeasure W H st) := by
  unfold roundStep
  have hperm : (shuffle st.round st.active).Perm (List.range n) := (hsh _ _).trans inv.activeP
  have hlt : ∀ r ∈ shuffle st.round st.active, r < n := fun r hr =>
    List.mem_range.mp (hperm.mem_iff.mp hr)
  have hnd : (shuffle st.round st.active).Nodup := hperm.nodup_iff.mpr (List.nodup_range n)
  have inv' : VInv0 W H n seeds
      { st with active := shuffle st.round st.active, round := st.round + 1 } :=
    ⟨inv.mshape, inv.qlen, inv.qcells, inv.matIds, inv.seedsCl, inv.reach, inv.histNd,
      inv.histCl, hperm⟩
  have hproc' : Processed W H
      { st with active := shuffle st.round st.active, round := st.round + 1 } := hproc
  obtain ⟨inv2, hproc2, hmono2, hms2, _⟩ := stepFold_inv (shuffle st.round st.active) hlt inv' hproc'
  refine ⟨inv2, hproc2, hmono2, hms2, ?_⟩
  rintro ⟨q, hqm, hqne⟩
  obtain ⟨i, hi, hqi⟩ := List.mem_iff_getElem.mp hqm
  have hin : i < n := by
    rw [← inv.qlen]
    exact hi
  have hgd : st.queues.getD i [] ≠ [] := by
    rw [List.getD_eq_getElem st.queues [] hi, hqi]
    exact hqne
  have himem : i ∈ shuffle st.round st.active := hperm.mem_iff.mpr (List.mem_range.mpr hin)
  exact stepFold_strict (shuffle st.round st.active) hlt hnd inv' hproc' i himem hgd

theorem voronoiLoop_inv {W H n : Nat} {seeds : List Cell} {shuffle : Nat → List Nat → List Nat}
    (hsh : ∀ r l, (shuffle r l).Perm l) :
    ∀ (fuel : Nat) {st : VState}, VInv0 W H n seeds st → Processed W H st →
      vmeasure W H st < fuel →
      VInv0 W H n seeds (voronoiLoop W H shuffle fuel st) ∧
      Processed W H (voronoiLoop W H shuffle fuel st) ∧
      (∀ c' r', matAt st.mat c' = some r' →
        matAt (voronoiLoop W H shuffle fuel st).mat c' = some r') ∧
      (∀ q ∈ (voronoiLoop W H shuffle fuel st).queues, q = []) := by
  intro fuel
  induction fuel with
  | zero =>
    intro st _ _ h
    omega
  | succ fuel ih =>
    intro st inv hproc hm
    rw [voronoiLoop]
    split_ifs with hq
    · obtain ⟨inv2, hproc2, hmono2, hle, hstrict⟩ := roundStep_inv hsh inv hproc
      have hrec := ih inv2 hproc2 (by have := hstrict hq; omega)
      exact ⟨hrec.1, hrec.2.1, fun c' r' h' => hrec.2.2.1 c' r' (hmono2 c' r' h'),
        hrec.2.2.2⟩
    · push_neg at hq
      exact ⟨inv, hproc, fun _ _ h => h, hq⟩

theorem seedFold_shape {W H : Nat} :
    ∀ (ps : List (Nat × Cell)) (st0 : VState), matShape W H st0.mat →
      matShape W H (ps.foldl seedWrite st0).mat := by
  intro ps
  induction ps with
  | nil => exact fun st0 h => h
  | cons p rest ih =>
    intro st0 h
    rw [List.foldl_cons]
    exact ih _ (matShape_matSet h p.2 p.1)

theorem seedFold_mat_other :
    ∀ (ps : List (Nat × Cell)) (st0 : VState) (c : Cell), (∀ p ∈ ps, p.2 ≠ c) →
      matAt (ps.foldl seedWrite st0).mat c = matAt st0.mat c := by
  intro ps
  induction ps with
  | nil => exact fun _ _ _ => rfl
  | cons p rest ih =>
    intro st0 c hne
    rw [List.foldl_cons, ih _ c fun q hq => hne q (List.mem_cons_of_mem _ hq)]
    exact matAt_matSet_other (fun he => hne p (List.mem_cons_self ..) he.symm) p.1

theorem seedFold_mat_self {W H : Nat} :
    ∀ (ps : List (Nat × Cell)) (st0 : VState), matShape W H st0.mat →
      (∀ p ∈ ps, p.2.1 < W ∧ p.2.2 < H) → (ps.map Prod.snd).Nodup →
      ∀ p ∈ ps, matAt (ps.foldl seedWrite st0).mat p.2 = some p.1 := by
  intro ps
  induction ps with
  | nil =>
    intro _ _ _ _ p hp
    simp at hp
  | cons q rest ih =>
    intro st0 hshape hgrid hnd p hp
    simp only [List.map_cons, List.nodup_cons] at hnd
    rw [List.foldl_cons]
    rcases List.mem_cons.mp hp with rfl | hp2
    · rw [seedFold_mat_other rest _ p.2 fun q2 hq2 he =>
        hnd.1 (he ▸ List.mem_map.mpr ⟨q2, hq2, rfl⟩)]
      exact matAt_matSet_self hshape (hgrid p (List.mem_cons_self ..)) p.1
    · exact ih _ (matShape_matSet hshape q.2 q.1)
        (fun r hr => hgrid r (List.mem_cons_of_mem _ hr)) hnd.2 p hp2

theorem matAt_matSet_inv {mat : List (List (Option Nat))} {c : Cell} {r : Nat} :
    ∀ (c' : Cell) (r' : Nat), matAt (matSet mat c r) c' = some r' →
      (c' = c ∧ r' = r) ∨ matAt mat c' = some r' := by
  intro c' r' h
  rcases eq_or_ne c' c with rfl | hne
  · unfold matAt matSet at h
    rcases Nat.lt_or_ge c'.2 mat.length with hy | hy
    · rw [getD_set_self2 hy] at h
      rcases Nat.lt_or_ge c'.1 (mat.getD c'.2 []).length with hx | hx
      · rw [getD_set_self2 hx] at h
        left
        exact ⟨rfl, by injection h.symm⟩
      · rw [List.set_eq_of_length_le hx] at h
        exact Or.inr h
    · rw [List.set_eq_of_length_le hy] at h
      exact Or.inr h
  · rw [matAt_matSet_other hne] at h
    exact Or.inr h

theorem seedFold_mat_inv :
    ∀ (ps : List (Nat × Cell)) (st0 : VState) (c : Cell) (r : Nat),
      matAt (ps.foldl seedWrite st0).mat c = some r →
      (r, c) ∈ ps ∨ matAt st0.mat c = some r := by
  intro ps
  induction ps with
  | nil => exact fun _ _ _ h => Or.inr h
  | cons q rest ih =>
    intro st0 c r h
    rw [List.foldl_cons] at h
    rcases ih _ c r h with h2 | h2
    · exact Or.inl (List.mem_cons_of_mem _ h2)
    · simp only [seedWrite] at h2
      rcases matAt_matSet_inv c r h2 with ⟨rfl, rfl⟩ | h3
      · left
        rw [List.mem_cons]
        left
        exact Prod.ext rfl rfl
      · exact Or.inr h3

theorem seedFold_queues_length :
    ∀ (ps : List (Nat × Cell)) (st0 : VState),
      (ps.foldl seedWrite st0).queues.length = st0.queues.length := by
  intro ps
  induction ps with
  | nil => exact fun _ => rfl
  | cons p rest ih =>
    intro st0
    rw [List.foldl_cons, ih]
    exact List.length_set ..

theorem seedFold_queue_mem_inv :
    ∀ (ps : List (Nat × Cell)) (st0 : VState) (rid : Nat) (c : Cell),
      c ∈ (ps.foldl seedWrite st0).queues.getD rid [] →
      c ∈ st0.queues.getD rid [] ∨ (rid, c) ∈ ps := by
  intro ps
  induction ps with
  | nil => exact fun _ _ _ h => Or.inl h
  | cons q rest ih =>
    intro st0 rid c h
    rw [List.foldl_cons] at h
    rcases ih _ rid c h with h2 | h2
    · simp only [seedWrite] at h2
      rcases eq_or_ne rid q.1 with heq | hne
      · subst heq
        by_cases hb : q.1 < st0.queues.length
        · rw [getD_enqueue_self hb] at h2
          rcases List.mem_append.mp h2 with h3 | h3
          · exact Or.inl h3
          · rw [List.mem_singleton] at h3
            subst h3
            right
            rw [List.mem_cons]
            left
            exact Prod.ext rfl rfl
        · unfold enqueue at h2
          rw [List.set_eq_of_length_le (by omega)] at h2
          exact Or.inl h2
      · rw [getD_enqueue_ne (Ne.symm hne)] at h2
        exact Or.inl h2
    · exact Or.inr (List.mem_cons_of_mem _ h2)

theorem seedFold_queue_mono :
    ∀ (ps : List (Nat × Cell)) (st0 : VState) (rid : Nat) (c : Cell),
      c ∈ st0.queues.getD rid [] → c ∈ (ps.foldl seedWrite st0).queues.getD rid [] := by
  intro ps
  induction ps with
  | nil => exact fun _ _ _ h => h
  | cons q rest ih =>
    intro st0 rid c h
    rw [List.foldl_cons]
    refine ih _ rid c ?_
    show c ∈ (enqueue st0.queues q.1 q.2).getD rid []
    rcases eq_or_ne rid q.1 with rfl | hne
    · by_cases hb : q.1 < st0.queues.length
      · rw [getD_enqueue_self hb]
        exact List.mem_append_left _ h
      · unfold enqueue
        rw [List.set_eq_of_length_le (by omega)]
        exact h
    · rw [getD_enqueue_ne (Ne.symm hne)]
      exact h

theorem seedFold_queue_mem :
    ∀ (ps : List (Nat × Cell)) (st0 : VState), (∀ p ∈ ps, p.1 < st0.queues.length) →
      ∀ p ∈ ps, p.2 ∈ (ps.foldl seedWrite st0).queues.getD p.1 [] := by
  intro ps
  induction ps with
  | nil =>
    intro _ _ p hp
    simp at hp
  | cons q rest ih =>
    intro st0 hlen p hp
    rw [List.foldl_cons]
    rcases List.mem_cons.mp hp with rfl | hp2
    · refine seedFold_queue_mono rest _ p.1 p.2 ?_
      show p.2 ∈ (enqueue st0.queues p.1 p.2).getD p.1 []
      rw [getD_enqueue_self (hlen p (List.mem_cons_self ..))]
      exact List.mem_append_right _ (List.mem_singleton.mpr rfl)
    · refine ih _ ?_ p hp2
      intro r hr
      show r.1 < (enqueue st0.queues q.1 q.2).length
      rw [length_enqueue]
      exact hlen r (List.mem_cons_of_mem _ hr)

theorem seedFold_history :
    ∀ (ps : List (Nat × Cell)) (st0 : VState),
      (ps.foldl seedWrite st0).history = st0.history ++ ps.map Prod.snd := by
  intro ps
  induction ps with
  | nil => exact fun _ => by simp
  | cons p rest ih =>
    intro st0
    rw [List.foldl_cons, ih]
    simp [seedWrite]

theorem seedFold_active :
    ∀ (ps : List (Nat × Cell)) (st0 : VState),
      (ps.foldl seedWrite st0).active = st0.active := by
  intro ps
  induction ps with
  | nil => exact fun _ => rfl
  | cons p rest ih =>
    intro st0
    rw [List.foldl_cons, ih]
    rfl

theorem base_shape (W H : Nat) :
    matShape W H (List.replicate H (List.replicate W (none : Option Nat))) := by
  constructor
  · simp
  · intro row hrow
    rw [List.eq_of_mem_replicate hrow]
    simp

theorem base_none (W H : Nat) (c : Cell) :
    matAt (List.replicate H (List.replicate W (none : Option Nat))) c = none := by
  unfold matAt
  have hrow : (List.replicate H (List.replicate W (none : Option Nat))).getD c.2 [] =
      List.replicate W none ∨
      (List.replicate H (List.replicate W (none : Option Nat))).getD c.2 [] = [] := by
    rw [List.getD_eq_getElem?_getD, List.getElem?_replicate]
    split_ifs
    · left
      rfl
    · right
      rfl
  rcases hrow with h | h <;> rw [h]
  · rw [List.getD_eq_getElem?_getD, List.getElem?_replicate]
    split_ifs <;> rfl
  · rfl

theorem getD_replicate_nil (n rid : Nat) :
    (List.replicate n ([] : List Cell)).getD rid [] = [] := by
  rw [List.getD_eq_getElem?_getD, List.getElem?_replicate]
  split_ifs <;> rfl

theorem scanCells_length (W H : Nat) : (scanCells W H).length = W * H := by
  unfold scanCells
  rw [List.length_flatMap]
  have h : (List.range H).map
      (List.length ∘ fun y => (List.range W).map fun x => ((x, y) : Cell)) =
      List.replicate H W := by
    rw [List.eq_replicate_iff]
    constructor
    · simp
    · intro b hb
      rw [List.mem_map] at hb
      obtain ⟨y, _, rfl⟩ := hb
      simp
  rw [h, List.sum_replicate, smul_eq_mul]
  exact Nat.mul_comm H W

theorem seedFold_queueSum :
    ∀ (ps : List (Nat × Cell)) (st0 : VState), (∀ p ∈ ps, p.1 < st0.queues.length) →
      ((ps.foldl seedWrite st0).queues.map List.length).sum =
        (st0.queues.map List.length).sum + ps.length := by
  intro ps
  induction ps with
  | nil => exact fun _ _ => rfl
  | cons p rest ih =>
    intro st0 hlen
    rw [List.foldl_cons]
    have h1 := ih (seedWrite st0 p) (by
      intro r hr
      show r.1 < (enqueue st0.queues p.1 p.2).length
      rw [length_enqueue]
      exact hlen r (List.mem_cons_of_mem _ hr))
    rw [h1]
    have h2 : ((enqueue st0.queues p.1 p.2).map List.length).sum =
        (st0.queues.map List.length).sum + 1 :=
      queueSum_enqueue (hlen p (List.mem_cons_self ..)) p.2
    show ((enqueue st0.queues p.1 p.2).map List.length).sum + rest.length = _
    rw [h2]
    simp only [List.length_cons]
    omega

theorem initVState_inv {W H n : Nat} {seeds : List Cell}
    (hlen : seeds.length = n) (hnd : seeds.Nodup)
    (hgrid : ∀ s ∈ seeds, s.1 < W ∧ s.2 < H) :
    VInv0 W H n seeds (initVState W H n seeds) ∧ Processed W H (initVState W H n seeds) ∧
    vmeasure W H (initVState W H n seeds) ≤ n + 2 * (W * H) := by
  have hplt : ∀ p ∈ seeds.enum, p.1 < n := by
    intro p hp
    have h2 := List.mem_enum_iff_getElem?.mp hp
    have h3 : p.1 < seeds.length := by
      by_contra hc
      rw [List.getElem?_eq_none (by omega)] at h2
      exact Option.noConfusion h2
    omega
  have hpgrid : ∀ p ∈ seeds.enum, p.2.1 < W ∧ p.2.2 < H := fun p hp =>
    hgrid p.2 (List.getElem?_mem (List.mem_enum_iff_getElem?.mp hp))
  have hpnd : (seeds.enum.map Prod.snd).Nodup := by
    rw [List.enum_map_snd]
    exact hnd
  have hshape0 : matShape W H (List.replicate H (List.replicate W (none : Option Nat))) :=
    base_shape W H
  have hinit : initVState W H n seeds = seeds.enum.foldl seedWrite
      ⟨List.replicate H (List.replicate W none), List.replicate n [], List.range n, 0, []⟩ := rfl
  have hself : ∀ p ∈ seeds.enum, matAt (initVState W H n seeds).mat p.2 = some p.1 := by
    rw [hinit]
    exact seedFold_mat_self seeds.enum _ hshape0 hpgrid hpnd
  have hmatinv : ∀ c r, matAt (initVState W H n seeds).mat c = some r → (r, c) ∈ seeds.enum := by
    intro c r h
    rw [hinit] at h
    rcases seedFold_mat_inv seeds.enum _ c r h with h2 | h2
    · exact h2
    · have h3 := base_none W H c
      rw [show matAt (List.replicate H (List.replicate W (none : Option Nat))) c = some r
        from h2] at h3
      exact Option.noConfusion h3
  have henum : ∀ i, i < n → (i, seeds.getD i (0, 0)) ∈ seeds.enum := by
    intro i hi
    rw [List.mk_mem_enum_iff_getElem?, List.getElem?_eq_getElem (by omega),
      List.getD_eq_getElem seeds _ (by omega)]
  have hqmem : ∀ p ∈ seeds.enum, p.2 ∈ (initVState W H n seeds).queues.getD p.1 [] := by
    rw [hinit]
    refine seedFold_queue_mem seeds.enum _ ?_
    intro p hp
    simpa using hplt p hp
  have hqleninit : (initVState W H n seeds).queues.length = n := by
    rw [hinit, seedFold_queues_length]
    simp
  have hgetD : ∀ (r : Nat) (c : Cell), (r, c) ∈ seeds.enum → seeds.getD r (0, 0) = c := by
    intro r c h
    have h2 := List.mk_mem_enum_iff_getElem?.mp h
    rw [List.getD_eq_getElem?_getD, h2]
    rfl
  refine ⟨⟨?_, hqleninit, ?_, ?_, ?_, ?_, ?_, ?_, ?_⟩, ?_, ?_⟩
  · rw [hinit]
    exact seedFold_shape _ _ hshape0
  · intro rid hrid c hc
    rw [hinit] at hc
    rcases seedFold_queue_mem_inv seeds.enum _ rid c hc with h2 | h2
    · rw [show (⟨List.replicate H (List.replicate W none), List.replicate n [],
        List.range n, 0, []⟩ : VState).queues = List.replicate n [] from rfl,
        getD_replicate_nil] at h2
      exact absurd h2 (List.not_mem_nil c)
    · exact hself (rid, c) h2
  · intro c r h
    exact hplt (r, c) (hmatinv c r h)
  · intro i hi
    exact hself (i, seeds.getD i (0, 0)) (henum i hi)
  · intro c r h
    have h2 := hmatinv c r h
    rw [hgetD r c h2]
    exact Reach4.refl
  · rw [hinit, seedFold_history]
    simpa [List.enum_map_snd] using hnd
  · intro c hc
    rw [hinit, seedFold_history] at hc
    simp only [List.enum_map_snd, List.nil_append] at hc
    obtain ⟨i, hi, hgi⟩ := List.mem_iff_getElem.mp hc
    have hmem : (i, c) ∈ seeds.enum := by
      rw [List.mk_mem_enum_iff_getElem?, List.getElem?_eq_getElem hi, hgi]
    rw [hself (i, c) hmem]
    simp
  · rw [hinit, seedFold_active]
  · intro c r h
    exact Or.inl (hqmem (r, c) (hmatinv c r h))
  · have hqs : ((initVState W H n seeds).queues.map List.length).sum = seeds.enum.length := by
      rw [hinit, seedFold_queueSum seeds.enum _ (fun p hp => by simpa using hplt p hp)]
      simp
    have hun : unclaimedCount W H (initVState W H n seeds) ≤ W * H := by
      unfold unclaimedCount
      calc _ ≤ (scanCells W H).length := List.length_filter_le _ _
      _ = W * H := scanCells_length W H
    unfold vmeasure queueSum
    rw [hqs, List.enum_length, hlen]
    omega

/-- Walk the full grid: a predicate that holds somewhere and is closed under
in-bounds orthogonal neighborhood holds at every cell of the grid. -/
theorem grid_walk {W H : Nat} (P : Cell → Prop)
    (hcl : ∀ c : Cell, P c → ∀ d ∈ neighbors4 c.1 c.2 W H, P d)
    {a : Cell} (ha1 : a.1 < W) (ha2 : a.2 < H) (hPa : P a)
    {b : Cell} (hb1 : b.1 < W) (hb2 : b.2 < H) : P b := by
  have hstepR : ∀ x y : Nat, x + 1 < W → y < H → P (x, y) → P (x + 1, y) := by
    intro x y hx hy hp
    refine hcl (x, y) hp (x + 1, y) ?_
    rw [mem_neighbors4]
    refine ⟨hx, hy, ?_⟩
    simp [Nat.dist]
  have hstepL : ∀ x y : Nat, x + 1 < W → y < H → P (x + 1, y) → P (x, y) := by
    intro x y hx hy hp
    refine hcl (x + 1, y) hp (x, y) ?_
    rw [mem_neighbors4]
    refine ⟨by omega, hy, ?_⟩
    simp [Nat.dist]
  have hstepD : ∀ x y : Nat, x < W → y + 1 < H → P (x, y) → P (x, y + 1) := by
    intro x y hx hy hp
    refine hcl (x, y) hp (x, y + 1) ?_
    rw [mem_neighbors4]
    refine ⟨hx, hy, ?_⟩
    simp [Nat.dist]
  have hstepU : ∀ x y : Nat, x < W → y + 1 < H → P (x, y + 1) → P (x, y) := by
    intro x y hx hy hp
    refine hcl (x, y + 1) hp (x, y) ?_
    rw [mem_neighbors4]
    refine ⟨hx, by omega, ?_⟩
    simp [Nat.dist]
  have hrow : ∀ k : Nat, ∀ x y : Nat, x < W → y < H → P (x, y) →
      ∀ t : Nat, t < W → Nat.dist t x ≤ k → P (t, y) := by
    intro k
    induction k with
    | zero =>
      intro x y hx hy hp t ht hd
      have : t = x := by
        simp only [Nat.dist] at hd
        omega
      subst this
      exact hp
    | succ k ih =>
      intro x y hx hy hp t ht hd
      rcases Nat.lt_trichotomy t x with hlt | heq | hgt
      · have hnext : P (x - 1, y) := by
          have hx1 : (x - 1) + 1 = x := by omega
          refine hstepL (x - 1) y (by omega) hy ?_
          rw [hx1]
          exact hp
        refine ih (x - 1) y (by omega) hy hnext t ht ?_
        simp only [Nat.dist] at hd ⊢
        omega
      · subst heq
        exact hp
      · have hnext : P (x + 1, y) := hstepR x y (by omega) hy hp
        refine ih (x + 1) y (by omega) hy hnext t ht ?_
        simp only [Nat.dist] at hd ⊢
        omega
  have hcol : ∀ k : Nat, ∀ x y : Nat, x < W → y < H → P (x, y) →
      ∀ t : Nat, t < H → Nat.dist t y ≤ k → P (x, t) := by
    intro k
    induction k with
    | zero =>
      intro x y hx hy hp t ht hd
      have : t = y := by
        simp only [Nat.dist] at hd
        omega
      subst this
      exact hp
    | succ k ih =>
      intro x y hx hy hp t ht hd
      rcases Nat.lt_trichotomy t y with hlt | heq | hgt
      · have hnext : P (x, y - 1) := by
          have hy1 : (y - 1) + 1 = y := by omega
          refine hstepU x (y - 1) hx (by omega) ?_
          rw [hy1]
          exact hp
        refine ih x (y - 1) hx (by omega) hnext t ht ?_
        simp only [Nat.dist] at hd ⊢
        omega
      · subst heq
        exact hp
      · have hnext : P (x, y + 1) := hstepD x y hx (by omega) hp
        refine ih x (y + 1) hx (by omega) hnext t ht ?_
        simp only [Nat.dist] at hd ⊢
        omega
  have hPa2 : P (a.1, a.2) := by
    rw [Prod.mk.eta]
    exact hPa
  have hmid : P (b.1, a.2) := hrow (Nat.dist b.1 a.1) a.1 a.2 ha1 ha2 hPa2 b.1 hb1 (le_refl _)
  have hfin : P (b.1, b.2) := hcol (Nat.dist b.2 a.2) b.1 a.2 hb1 ha2 hmid b.2 hb2 (le_refl _)
  rw [Prod.mk.eta] at hfin
  exact hfin

/-- Full correctness of the region generator under the rng oracle contract:
the loop completes (all queues empty), every cell is claimed by a region id
below n, each seed keeps its own id, regions are 4-connected, and each cell
was enqueued at most once (the ghost history is duplicate-free). -/
theorem generate_inv {W H n : Nat} {seeds : List Cell} {shuffle : Nat → List Nat → List Nat}
    (hn1 : 1 ≤ n) (hlen : seeds.length = n) (hnd : seeds.Nodup)
    (hgrid : ∀ s ∈ seeds, s.1 < W ∧ s.2 < H) (hnWH : n ≤ W * H)
    (hsh : ∀ r l, (shuffle r l).Perm l) :
    VInv0 W H n seeds (voronoiLoop W H shuffle (3 * W * H + 1) (initVState W H n seeds)) ∧
    (∀ q ∈ (voronoiLoop W H shuffle (3 * W * H + 1) (initVState W H n seeds)).queues, q = []) ∧
    (∀ c : Cell, c.1 < W → c.2 < H →
      matAt (voronoiLoop W H shuffle (3 * W * H + 1) (initVState W H n seeds)).mat c ≠ none) := by
  obtain ⟨inv0, hproc0, hms0⟩ := initVState_inv hlen hnd hgrid
  obtain ⟨inv, hproc, hmono, hqe⟩ :=
    voronoiLoop_inv hsh (3 * W * H + 1) inv0 hproc0 (by
      have h3 : 3 * W * H = 3 * (W * H) := by ring
      omega)
  refine ⟨inv, hqe, ?_⟩
  have hclosed : ∀ c : Cell, matAt
      (voronoiLoop W H shuffle (3 * W * H + 1) (initVState W H n seeds)).mat c ≠ none →
      ∀ d ∈ neighbors4 c.1 c.2 W H, matAt
        (voronoiLoop W H shuffle (3 * W * H + 1) (initVState W H n seeds)).mat d ≠ none := by
    intro c hc d hd
    cases hm : matAt (voronoiLoop W H shuffle (3 * W * H + 1) (initVState W H n seeds)).mat c with
    | none => exact absurd hm hc
    | some r =>
      rcases hproc c r hm with h2 | h2
      · have hq : (voronoiLoop W H shuffle (3 * W * H + 1)
            (initVState W H n seeds)).queues.getD r [] = [] := by
          rcases Nat.lt_or_ge r (voronoiLoop W H shuffle (3 * W * H + 1)
              (initVState W H n seeds)).queues.length with hr | hr
          · rw [List.getD_eq_getElem _ [] hr]
            exact hqe _ (List.getElem_mem hr)
          · exact List.getD_eq_default _ [] hr
        rw [hq] at h2
        exact absurd h2 (List.not_mem_nil c)
      · exact h2 d hd
  intro c hc1 hc2
  have hseed : (seeds.getD 0 (0, 0)).1 < W ∧ (seeds.getD 0 (0, 0)).2 < H := by
    refine hgrid _ ?_
    rw [List.getD_eq_getElem seeds _ (by omega)]
    exact List.getElem_mem _
  have hseedcl : matAt (voronoiLoop W H shuffle (3 * W * H + 1)
      (initVState W H n seeds)).mat (seeds.getD 0 (0, 0)) = some 0 := inv.seedsCl 0 hn1
  exact grid_walk _ hclosed hseed.1 hseed.2 (by rw [hseedcl]; simp) hc1 hc2

theorem RelPG_if {α : Type} {P Q : Prop} [Decidable P] [Decidable Q] (h : P ↔ Q)
    {a1 a2 : PState α} {b1 b2 : GState} (h1 : RelPG a1 b1) (h2 : RelPG a2 b2) :
    RelPG (if P then a1 else a2) (if Q then b1 else b2) := by
  by_cases hp : P
  · rw [if_pos hp, if_pos (h.mp hp)]
    exact h1
  · rw [if_neg hp, if_neg fun hq => hp (h.mpr hq)]
    exact h2

theorem loop_sim {α : Type} [DecidableEq α] (W H : Nat) (limit : Option Nat) (rid : α)
    (recurP : PState α → PState α) (recurG : GState → GState)
    (hrec : ∀ stp stg, RelPG stp stg → RelPG (recurP stp) (recurG stg)) :
    ∀ (cs : List Cell) (stp : PState α) (stg : GState), RelPG stp stg →
      RelPG (loopPlay W H limit rid recurP cs stp) (loopGen W H limit recurG cs stg) := by
  intro cs
  induction cs with
  | nil =>
    intro stp stg h
    exact h
  | cons c0 cs ih =>
    obtain ⟨x, y⟩ := c0
    intro stp stg h
    obtain ⟨hs, hr, hc, ho⟩ := h
    simp only [loopPlay, loopGen, hr, hc, ho, hs]
    by_cases h1 : y ∈ stg.taken_rows ∨ x ∈ stg.taken_cols
    · rw [if_pos h1, if_pos h1]
      exact ih stp stg ⟨hs, hr, hc, ho⟩
    · rw [if_neg h1, if_neg h1]
      by_cases h2 : ∃ c ∈ neighbors x y W H, c ∈ stg.occupied
      · rw [if_pos h2, if_pos h2]
        exact ih stp stg ⟨hs, hr, hc, ho⟩
      · rw [if_neg h2, if_neg h2]
        set st1p : PState α := ⟨stg.solutions, stp.one_solution, stg.taken_rows ++ [y],
          stg.taken_cols ++ [x], stp.taken_regions ++ [rid], stg.occupied ++ [(x, y)]⟩ with hst1p
        obtain ⟨h2s, h2r, h2c, h2o⟩ := hrec st1p (place stg x y) ⟨rfl, rfl, rfl, rfl⟩
        have hrel3 : RelPG
            { recurP st1p with
                occupied := (recurP st1p).occupied.erase (x, y),
                taken_rows := (recurP st1p).taken_rows.erase y,
                taken_cols := (recurP st1p).taken_cols.erase x,
                taken_regions := (recurP st1p).taken_regions.erase rid }
            (unplace (recurG (place stg x y)) x y) :=
          ⟨h2s, congrArg (fun l => l.erase y) h2r, congrArg (fun l => l.erase x) h2c,
            congrArg (fun l => l.erase (x, y)) h2o⟩
        exact RelPG_if (iff_of_eq (congrArg (limitHit limit) h2s)) hrel3 (ih _ _ hrel3)

theorem backtrack_sim {α : Type} [DecidableEq α] (W H : Nat) (limit : Option Nat) :
    ∀ (ids : List (α × List Cell)) (stp : PState α) (stg : GState), RelPG stp stg →
      RelPG (backtrackPlay W H limit ids stp) (backtrackGen W H limit ids stg) := by
  intro ids
  induction ids with
  | nil =>
    intro stp stg h
    simp only [backtrackPlay, backtrackGen, h.1]
    split_ifs with h1
    · exact h
    · exact ⟨by simp [recordPlay, recordGen, h.1], by simp [recordPlay, recordGen, h.2.1],
        by simp [recordPlay, recordGen, h.2.2.1], by simp [recordPlay, recordGen, h.2.2.2]⟩
  | cons e rest ih =>
    obtain ⟨rid, cells⟩ := e
    intro stp stg h
    simp only [backtrackPlay, backtrackGen, h.1]
    split_ifs with h1
    · exact h
    · exact loop_sim W H limit rid _ _ (fun sp sg hr => ih sp sg hr) cells stp stg h

theorem solver_play_count_eq_gen {α : Type} [DecidableEq α] [Inhabited α]
    (m : List (List α)) (limit : Option Nat) :
    (solver_count_and_one_solution m limit).1 =
      (solver_count_and_one_solution_from_regions m limit).1 := by
  have h := backtrack_sim (m.headD []).length m.length limit
    (region_map_from_matrix m) ⟨0, none, [], [], [], []⟩ ⟨0, none, [], [], []⟩
    ⟨rfl, rfl, rfl, rfl⟩
  simpa [solver_count_and_one_solution, solver_count_and_one_solution_from_regions] using h.1

theorem recordPlay_sorted {α : Type} {st : PState α} (hsync : SyncP st) (hws : WitSorted st) :
    WitSorted (recordPlay st) := by
  have hsorted : (st.occupied.mergeSort fun a b => decide (a.1 ≤ b.1)).Pairwise
      (fun a b : Cell => a.1 < b.1) := by
    have htr : ∀ a b c : Cell, decide (a.1 ≤ b.1) = true → decide (b.1 ≤ c.1) = true →
        decide (a.1 ≤ c.1) = true := by
      intro a b c h1 h2
      simp only [decide_eq_true_eq] at h1 h2 ⊢
      omega
    have htot : ∀ a b : Cell, (decide (a.1 ≤ b.1) || decide (b.1 ≤ a.1)) = true := by
      intro a b
      simp only [Bool.or_eq_true, decide_eq_true_eq]
      omega
    have hle := List.sorted_mergeSort htr htot st.occupied
    have hperm := List.mergeSort_perm st.occupied fun a b => decide (a.1 ≤ b.1)
    have hnd2 : ((st.occupied.mergeSort fun a b => decide (a.1 ≤ b.1)).map Prod.fst).Nodup :=
      ((hperm.map Prod.fst).nodup_iff).mpr hsync.2.2
    have hne : (st.occupied.mergeSort fun a b => decide (a.1 ≤ b.1)).Pairwise
        (fun a b : Cell => a.1 ≠ b.1) := List.pairwise_map.mp hnd2
    refine (hle.and hne).imp ?_
    intro a b hab
    have h1 : a.1 ≤ b.1 := by simpa using hab.1
    exact lt_of_le_of_ne h1 hab.2
  intro ws hwseq w hw
  simp only [recordPlay] at hwseq
  cases hone : st.one_solution with
  | none =>
    rw [hone] at hwseq
    simp only at hwseq
    obtain rfl : [st.occupied.mergeSort fun a b => decide (a.1 ≤ b.1)] = ws := by
      simpa using hwseq
    rw [List.mem_singleton] at hw
    subst hw
    exact hsorted
  | some l =>
    rw [hone] at hwseq
    simp only at hwseq
    obtain rfl : l ++ [st.occupied.mergeSort fun a b => decide (a.1 ≤ b.1)] = ws := by
      simpa using hwseq
    rcases List.mem_append.mp hw with h2 | h2
    · exact hws l hone w h2
    · rw [List.mem_singleton] at h2
      subst h2
      exact hsorted

theorem loopPlay_sorted {α : Type} [DecidableEq α] (W H : Nat) (limit : Option Nat) (rid : α)
    (recur : PState α → PState α)
    (hrec : ∀ st : PState α, SyncP st →
      ((recur st).taken_rows = st.taken_rows ∧ (recur st).taken_cols = st.taken_cols ∧
        (recur st).occupied = st.occupied) ∧
      (WitSorted st → WitSorted (recur st))) :
    ∀ (cs : List Cell) (st : PState α), SyncP st →
      ((loopPlay W H limit rid recur cs st).taken_rows = st.taken_rows ∧
        (loopPlay W H limit rid recur cs st).taken_cols = st.taken_cols ∧
        (loopPlay W H limit rid recur cs st).occupied = st.occupied) ∧
      (WitSorted st → WitSorted (loopPlay W H limit rid recur cs st)) := by
  intro cs
  induction cs with
  | nil =>
    intro st hst
    exact ⟨⟨rfl, rfl, rfl⟩, fun h => h⟩
  | cons c0 cs ih =>
    obtain ⟨x, y⟩ := c0
    intro st hst
    obtain ⟨hrow, hcol, hnd⟩ := hst
    simp only [loopPlay]
    split_ifs with hskip hadj hlim
    · exact ih st ⟨hrow, hcol, hnd⟩
    · exact ih st ⟨hrow, hcol, hnd⟩
    · -- place branch, limit reached after the undo
      have hyn : y ∉ st.taken_rows := fun hmem => hskip (Or.inl hmem)
      have hxn : x ∉ st.taken_cols := fun hmem => hskip (Or.inr hmem)
      have hnotocc : (x, y) ∉ st.occupied := fun hmem =>
        hxn (hcol ▸ List.mem_map.mpr ⟨(x, y), hmem, rfl⟩)
      set st1 : PState α := ⟨st.solutions, st.one_solution, st.taken_rows ++ [y],
        st.taken_cols ++ [x], st.taken_regions ++ [rid], st.occupied ++ [(x, y)]⟩ with hst1
      have hsync1 : SyncP st1 := by
        refine ⟨by simp [hst1, hrow], by simp [hst1, hcol], ?_⟩
        rw [hst1]
        show ((st.occupied ++ [(x, y)]).map Prod.fst).Nodup
        simp only [List.map_append, List.map_cons, List.map_nil]
        rw [List.nodup_append]
        refine ⟨hnd, List.nodup_singleton _, ?_⟩
        intro a ha hb
        rw [List.mem_singleton] at hb
        subst hb
        exact (hcol ▸ hxn) ha
      obtain ⟨⟨h2r, h2c, h2o⟩, h2w⟩ := hrec st1 hsync1
      refine ⟨⟨?_, ?_, ?_⟩, ?_⟩
      · show ((recur st1).taken_rows).erase y = st.taken_rows
        rw [h2r, hst1]
        exact erase_append_self hyn
      · show ((recur st1).taken_cols).erase x = st.taken_cols
        rw [h2c, hst1]
        exact erase_append_self hxn
      · show ((recur st1).occupied).erase (x, y) = st.occupied
        rw [h2o, hst1]
        exact erase_append_self hnotocc
      · intro hws ws hwseq w hw
        have hws1 : WitSorted st1 := fun ws2 h2 w2 hw2 => hws ws2 h2 w2 hw2
        exact h2w hws1 ws hwseq w hw
    · -- place branch, loop continues
      have hyn : y ∉ st.taken_rows := fun hmem => hskip (Or.inl hmem)
      have hxn : x ∉ st.taken_cols := fun hmem => hskip (Or.inr hmem)
      have hnotocc : (x, y) ∉ st.occupied := fun hmem =>
        hxn (hcol ▸ List.mem_map.mpr ⟨(x, y), hmem, rfl⟩)
      set st1 : PState α := ⟨st.solutions, st.one_solution, st.taken_rows ++ [y],
        st.taken_cols ++ [x], st.taken_regions ++ [rid], st.occupied ++ [(x, y)]⟩ with hst1
      have hsync1 : SyncP st1 := by
        refine ⟨by simp [hst1, hrow], by simp [hst1, hcol], ?_⟩
        rw [hst1]
        show ((st.occupied ++ [(x, y)]).map Prod.fst).Nodup
        simp only [List.map_append, List.map_cons, List.map_nil]
        rw [List.nodup_append]
        refine ⟨hnd, List.nodup_singleton _, ?_⟩
        intro a ha hb
        rw [List.mem_singleton] at hb
        subst hb
        exact (hcol ▸ hxn) ha
      obtain ⟨⟨h2r, h2c, h2o⟩, h2w⟩ := hrec st1 hsync1
      have h3r : ((recur st1).taken_rows).erase y = st.taken_rows := by
        rw [h2r, hst1]
        exact erase_append_self hyn
      have h3c : ((recur st1).taken_cols).erase x = st.taken_cols := by
        rw [h2c, hst1]
        exact erase_append_self hxn
      have h3o : ((recur st1).occupied).erase (x, y) = st.occupied := by
        rw [h2o, hst1]
        exact erase_append_self hnotocc
      have hsync3 : SyncP
          { recur st1 with
              occupied := (recur st1).occupied.erase (x, y),
              taken_rows := (recur st1).taken_rows.erase y,
              taken_cols := (recur st1).taken_cols.erase x,
              taken_regions := (recur st1).taken_regions.erase rid } := by
        refine ⟨?_, ?_, ?_⟩
        · show ((recur st1).taken_rows).erase y = ((recur st1).occupied.erase (x, y)).map Prod.snd
          rw [h3r, h3o]
          exact hrow
        · show ((recur st1).taken_cols).erase x = ((recur st1).occupied.erase (x, y)).map Prod.fst
          rw [h3c, h3o]
          exact hcol
        · show (((recur st1).occupied.erase (x, y)).map Prod.fst).Nodup
          rw [h3o]
          exact hnd
      obtain ⟨⟨hfr, hfc, hfo⟩, hfw⟩ := ih _ hsync3
      refine ⟨⟨?_, ?_, ?_⟩, ?_⟩
      · rw [hfr]
        exact h3r
      · rw [hfc]
        exact h3c
      · rw [hfo]
        exact h3o
      · intro hws
        have hws1 : WitSorted st1 := fun ws2 h2 w2 hw2 => hws ws2 h2 w2 hw2
        exact hfw (h2w hws1)

theorem backtrackPlay_sorted {α : Type} [DecidableEq α] (W H : Nat) (limit : Option Nat) :
    ∀ (ids : List (α × List Cell)) (st : PState α), SyncP st →
      ((backtrackPlay W H limit ids st).taken_rows = st.taken_rows ∧
        (backtrackPlay W H limit ids st).taken_cols = st.taken_cols ∧
        (backtrackPlay W H limit ids st).occupied = st.occupied) ∧
      (WitSorted st → WitSorted (backtrackPlay W H limit ids st)) := by
  intro ids
  induction ids with
  | nil =>
    intro st hst
    simp only [backtrackPlay]
    split_ifs with hlim
    · exact ⟨⟨rfl, rfl, rfl⟩, fun h => h⟩
    · exact ⟨⟨rfl, rfl, rfl⟩, fun hws => recordPlay_sorted hst hws⟩
  | cons e rest ih =>
    obtain ⟨rid, cells⟩ := e
    intro st hst
    simp only [backtrackPlay]
    split_ifs with hlim
    · exact ⟨⟨rfl, rfl, rfl⟩, fun h => h⟩
    · exact loopPlay_sorted W H limit rid _ (fun st2 h2 => ih st2 h2) cells st hst

theorem okPair_symm : Symmetric okPair := by
  rintro a b ⟨h1, h2, h3⟩
  exact ⟨Ne.symm h1, Ne.symm h2, by rwa [cheb_comm]⟩

theorem completes_length {α : Type} {W H : Nat} {occ : List Cell}
    {ids : List (α × List Cell)} {w : List Cell} (h : Completes W H occ ids w) :
    w.length = occ.length + ids.length := by
  induction h with
  | nil occ => simp
  | @cons occ rid cells rest w c hc hfree hrec ih =>
    simp only [List.length_append, List.length_cons, List.length_nil] at ih ⊢
    omega

theorem completes_good {α : Type} {W H : Nat} {occ : List Cell}
    {ids : List (α × List Cell)} {w : List Cell} (h : Completes W H occ ids w) :
    (∀ e ∈ ids, ∀ c ∈ e.2, c.1 < W ∧ c.2 < H) →
    occ.Pairwise okPair → (∀ c ∈ occ, c.1 < W ∧ c.2 < H) →
    w.Pairwise okPair ∧ ∀ c ∈ w, c.1 < W ∧ c.2 < H := by
  induction h with
  | nil occ =>
    intro _ h1 h2
    exact ⟨h1, h2⟩
  | @cons occ rid cells rest w c hc hfree hrec ih =>
    intro hgrid h1 h2
    have hcg : c.1 < W ∧ c.2 < H := hgrid (rid, cells) (List.mem_cons_self ..) c hc
    obtain ⟨hf1, hf2, hf3⟩ := hfree
    have hok : ∀ o ∈ occ, okPair o c := by
      intro o ho
      have hog := h2 o ho
      refine ⟨?_, ?_, ?_⟩
      · intro he
        exact hf1 (he ▸ List.mem_map.mpr ⟨o, ho, rfl⟩)
      · intro he
        exact hf2 (he ▸ List.mem_map.mpr ⟨o, ho, rfl⟩)
      · by_contra hle
        push_neg at hle
        refine hf3 ⟨o, ?_, ho⟩
        rw [mem_neighbors]
        refine ⟨hog.1, hog.2, ?_, ?_⟩
        · intro he
          refine hf2 (List.mem_map.mpr ⟨o, ho, ?_⟩)
          rw [he]
        · rw [Prod.mk.eta]
          exact hle
    refine ih (fun e he => hgrid e (List.mem_cons_of_mem _ he)) ?_ ?_
    · rw [List.pairwise_append]
      refine ⟨h1, List.pairwise_singleton _ _, ?_⟩
      intro o ho c2 hc2
      rw [List.mem_singleton] at hc2
      subst hc2
      exact hok o ho
    · intro c2 hc2
      rcases List.mem_append.mp hc2 with h3 | h3
      · exact h2 c2 h3
      · rw [List.mem_singleton] at h3
        subst h3
        exact hcg

theorem completes_filter_count {α : Type} [DecidableEq α] {W H : Nat} (f : Cell → α) :
    ∀ {occ : List Cell} {ids : List (α × List Cell)} {w : List Cell},
      Completes W H occ ids w → (ids.map Prod.fst).Nodup →
      (∀ e ∈ ids, ∀ c ∈ e.2, f c = e.1) → ∀ k : α,
      (w.filter fun c => decide (f c = k)).length =
        (occ.filter fun c => decide (f c = k)).length +
          (if k ∈ ids.map Prod.fst then 1 else 0) := by
  intro occ ids w h
  induction h with
  | nil occ =>
    intro _ _ k
    simp
  | @cons occ rid cells rest w c hc hfree hrec ih =>
    intro hnd hf k
    simp only [List.map_cons, List.nodup_cons] at hnd
    have hfc : f c = rid := hf (rid, cells) (List.mem_cons_self ..) c hc
    have hih := ih hnd.2 (fun e he => hf e (List.mem_cons_of_mem _ he)) k
    rw [List.filter_append] at hih
    simp only [List.length_append] at hih
    simp only [List.map_cons]
    by_cases hk : k = rid
    · subst hk
      rw [if_pos (List.mem_cons_self ..)]
      have h0 : (if k ∈ rest.map Prod.fst then 1 else 0) = 0 := if_neg hnd.1
      have h1 : ([c].filter fun c2 => decide (f c2 = k)).length = 1 := by
        simp [hfc]
      omega
    · have hcond : (k ∈ rid :: rest.map Prod.fst) ↔ k ∈ rest.map Prod.fst := by
        rw [List.mem_cons]
        simp [hk]
      rw [if_congr hcond rfl rfl]
      have h1 : ([c].filter fun c2 => decide (f c2 = k)).length = 0 := by
        simp [hfc, Ne.symm hk]
      omega

/-! ### Counting helpers for the partial-board validator -/
theorem count_map_eq_countP {β γ : Type} [BEq γ] [LawfulBEq γ] (f : β → γ) (l : List β) (y : γ) :
    (l.map f).count y = l.countP fun b => f b == y := by
  induction l with
  | nil => rfl
  | cons a t ih =>
    rw [List.map_cons, List.count_cons, List.countP_cons, ih]

theorem two_mem_one_lt_length {β : Type} {l : List β} {a b : β} (ha : a ∈ l) (hb : b ∈ l)
    (hne : a ≠ b) : 1 < l.length := by
  cases l with
  | nil => simp at ha
  | cons x t =>
    cases t with
    | nil =>
      rw [List.mem_singleton] at ha hb
      exact absurd (ha.trans hb.symm) hne
    | cons y2 t2 =>
      simp only [List.length_cons]
      omega

theorem one_lt_countP_iff {β : Type} {l : List β} (hnd : l.Nodup) (p : β → Bool) :
    1 < l.countP p ↔ ∃ a ∈ l, ∃ b ∈ l, a ≠ b ∧ p a = true ∧ p b = true := by
  rw [List.countP_eq_length_filter]
  constructor
  · intro h
    match hf : l.filter p with
    | [] =>
      rw [hf] at h
      simp at h
    | [a] =>
      rw [hf] at h
      simp at h
    | a :: b :: t =>
      have hfa : a ∈ l.filter p := by
        rw [hf]
        exact List.mem_cons_self ..
      have hfb : b ∈ l.filter p := by
        rw [hf]
        exact List.mem_cons_of_mem _ (List.mem_cons_self ..)
      have hndf := hnd.filter p
      have hab : a ≠ b := by
        rw [hf, List.nodup_cons] at hndf
        exact fun he => hndf.1 (he ▸ List.mem_cons_self ..)
      obtain ⟨ha, hpa⟩ := List.mem_filter.mp hfa
      obtain ⟨hb, hpb⟩ := List.mem_filter.mp hfb
      exact ⟨a, ha, b, hb, hab, hpa, hpb⟩
  · rintro ⟨a, ha, b, hb, hne, hpa, hpb⟩
    exact two_mem_one_lt_length (List.mem_filter.mpr ⟨ha, hpa⟩)
      (List.mem_filter.mpr ⟨hb, hpb⟩) hne

theorem count_conflict_iff {β : Type} [BEq β] [LawfulBEq β] {board : List Cell}
    (hnd : board.Nodup) (f : Cell → β) :
    (∃ c ∈ board, 1 < (board.map f).count (f c)) ↔
      ∃ c1 ∈ board, ∃ c2 ∈ board, c1 ≠ c2 ∧ f c1 = f c2 := by
  constructor
  · rintro ⟨c, hcb, hcount⟩
    rw [count_map_eq_countP] at hcount
    obtain ⟨a, ha, b, hb, hne, hpa, hpb⟩ := (one_lt_countP_iff hnd _).mp hcount
    rw [beq_iff_eq] at hpa hpb
    exact ⟨a, ha, b, hb, hne, hpa.trans hpb.symm⟩
  · rintro ⟨c1, h1, c2, h2, hne, hfe⟩
    refine ⟨c1, h1, ?_⟩
    rw [count_map_eq_countP]
    refine (one_lt_countP_iff hnd _).mpr ⟨c1, h1, c2, h2, hne, by simp, ?_⟩
    simp [hfe]

theorem savedSpec_succ (W H : Nat) (sample : Nat → List Cell)
    (shuffle : Nat → Nat → List Nat → List Nat) (t : Nat) :
    savedSpec W H sample shuffle (t + 1) =
      savedSpec W H sample shuffle t ++
        (if (solveAt W H sample shuffle t).1 = 1 then
          [(genAt W H sample shuffle t, (solveAt W H sample shuffle t).2)] else []) := by
  unfold savedSpec
  rw [List.range_succ, List.filter_append, List.map_append]
  by_cases h : (solveAt W H sample shuffle t).1 = 1 <;> simp [h]

theorem findLoop_zero (W H attempts want : Nat) (sample : Nat → List Cell)
    (shuffle : Nat → Nat → List Nat → List Nat) (tries found : Nat)
    (saved : List (List (List (Option Nat)) × Option (List Cell))) :
    findLoop W H attempts want sample shuffle 0 tries found saved =
      ⟨found, tries, saved, decide (found = 0)⟩ := rfl

theorem findLoop_succ (W H attempts want : Nat) (sample : Nat → List Cell)
    (shuffle : Nat → Nat → List Nat → List Nat) (fuel tries found : Nat)
    (saved : List (List (List (Option Nat)) × Option (List Cell))) :
    findLoop W H attempts want sample shuffle (fuel + 1) tries found saved =
      if tries < attempts ∧ found < want then
        if (solveAt W H sample shuffle tries).1 = 1 then
          findLoop W H attempts want sample shuffle fuel (tries + 1) (found + 1)
            (saved ++ [(genAt W H sample shuffle tries, (solveAt W H sample shuffle tries).2)])
        else findLoop W H attempts want sample shuffle fuel (tries + 1) found saved
      else ⟨found, tries, saved, decide (found = 0)⟩ := rfl

theorem findLoop_char (W H attempts want : Nat) (sample : Nat → List Cell)
    (shuffle : Nat → Nat → List Nat → List Nat) :
    ∀ (fuel tries found : Nat) (saved : List (List (List (Option Nat)) × Option (List Cell))),
      fuel + tries = attempts → found ≤ want → found = saved.length →
      saved = savedSpec W H sample shuffle tries →
      (findLoop W H attempts want sample shuffle fuel tries found saved).tries ≤ attempts ∧
      (findLoop W H attempts want sample shuffle fuel tries found saved).found ≤ want ∧
      (findLoop W H attempts want sample shuffle fuel tries found saved).found =
        (findLoop W H attempts want sample shuffle fuel tries found saved).saved.length ∧
      ((findLoop W H attempts want sample shuffle fuel tries found saved).found = want ∨
        (findLoop W H attempts want sample shuffle fuel tries found saved).tries = attempts) ∧
      (findLoop W H attempts want sample shuffle fuel tries found saved).saved =
        savedSpec W H sample shuffle
          (findLoop W H attempts want sample shuffle fuel tries found saved).tries ∧
      (findLoop W H attempts want sample shuffle fuel tries found saved).no_puzzles_msg =
        decide ((findLoop W H attempts want sample shuffle fuel tries found saved).found = 0) := by
  intro fuel
  induction fuel with
  | zero =>
    intro tries found saved hft hfw hlen hsv
    rw [findLoop_zero]
    exact ⟨show tries ≤ attempts by omega, hfw, hlen,
      Or.inr (show tries = attempts by omega), hsv, rfl⟩
  | succ fuel ih =>
    intro tries found saved hft hfw hlen hsv
    rw [findLoop_succ]
    split_ifs with hguard hacc
    · refine ih (tries + 1) (found + 1) _ (by omega) (by omega) (by simp [hlen]) ?_
      rw [savedSpec_succ, if_pos hacc, hsv]
    · refine ih (tries + 1) found saved (by omega) hfw hlen ?_
      rw [savedSpec_succ, if_neg hacc, List.append_nil, hsv]
    · exact ⟨show tries ≤ attempts by omega, hfw, hlen,
        show found = want ∨ tries = attempts by omega, hsv, rfl⟩

theorem loopGen_none (W H : Nat) (limit : Option Nat) (recur : GState → GState)
    (hrec : ∀ st : GState, NoneZero st → NoneZero (recur st)) :
    ∀ (cs : List Cell) (st : GState), NoneZero st →
      NoneZero (loopGen W H limit recur cs st) := by
  intro cs
  induction cs with
  | nil =>
    intro st h
    exact h
  | cons c0 cs ih =>
    obtain ⟨x, y⟩ := c0
    intro st h
    simp only [loopGen]
    split_ifs with hskip hadj hlim
    · exact ih st h
    · exact ih st h
    · exact hrec (place st x y) h
    · exact ih _ (hrec (place st x y) h)

theorem backtrackGen_none {α : Type} (W H : Nat) (limit : Option Nat) :
    ∀ (ids : List (α × List Cell)) (st : GState), NoneZero st →
      NoneZero (backtrackGen W H limit ids st) := by
  intro ids
  induction ids with
  | nil =>
    intro st h
    simp only [backtrackGen]
    split_ifs with hlim
    · exact h
    · intro hw
      simp only [recordGen] at hw
      cases hone : st.one_solution with
      | none =>
        rw [hone] at hw
        simp at hw
      | some w0 =>
        rw [hone] at hw
        simp at hw
  | cons e rest ih =>
    obtain ⟨rid, cells⟩ := e
    intro st h
    simp only [backtrackGen]
    split_ifs with hlim
    · exact h
    · exact loopGen_none W H limit _ (fun st2 h2 => ih st2 h2) cells st h

/-! ### The rejection conditions of the partial-board validator -/
theorem isValidPartial_false_iff {α : Type} [DecidableEq α] [Inhabited α]
    (m : List (List α)) (board : List Cell) :
    isValidPartial m board = false ↔
      ((∃ c ∈ board, ∃ d ∈ neighbors c.1 c.2 (m.headD []).length m.length, d ∈ board) ∨
       (∃ c ∈ board, 1 < (board.map (·.2)).count c.2) ∨
       (∃ c ∈ board, 1 < (board.map (·.1)).count c.1) ∨
       (∃ c ∈ board, 1 < (board.map fun d => matAt m d).count (matAt m c))) := by
  simp only [isValidPartial]
  split_ifs with h1 h2 h3 h4
  · exact iff_of_true rfl (Or.inl h1)
  · exact iff_of_true rfl (Or.inr (Or.inl h2))
  · exact iff_of_true rfl (Or.inr (Or.inr (Or.inl h3)))
  · exact iff_of_true rfl (Or.inr (Or.inr (Or.inr h4)))
  · exact iff_of_false (by simp) fun h => h.elim h1 fun h => h.elim h2 fun h => h.elim h3 h4

/-! ### The claims -/
/-- C1: the claim asserts that a W×W matrix using only W−1 distinct region
ids always yields count 0. The count is not 0 in general — the solver places
one crown per region id actually present and never requires every row or
column to be filled — so the claim is corrected: the solver still never
crashes (it is total) and its count equals the specification count countSols
over the region map of the matrix, with no saturation requirement; for a
deficient-id matrix this count can be positive (see the counterexample). -/
theorem claim_C1 (W : Nat) (m : List (List Nat)) (hsq : m.length = W)
    (hrows : ∀ row ∈ m, row.length = W)
    (hids : ((region_map_from_matrix m).map Prod.fst).length = W - 1) :
    (solver_count_and_one_solution_from_regions m none).1 =
      countSols (m.headD []).length m.length (region_map_from_matrix m) [] :=
  solve_count_none m

/-- C1 counterexample: [[0,0],[0,0]] is a 2×2 matrix with a single region id
(W−1 = 1 distinct ids), yet the solver reports 4 solutions, not 0. -/
theorem claim_C1_counterexample :
    ((region_map_from_matrix [[0, 0], [0, 0]]).map Prod.fst).length = 2 - 1 ∧
    (solver_count_and_one_solution_from_regions [[0, 0], [0, 0]] none).1 = 4 ∧
    (solver_count_and_one_solution_from_regions [[0, 0], [0, 0]] none).1 ≠ 0 := by
  decide

theorem claim_C1_witness :
    (solver_count_and_one_solution_from_regions [[0, 0], [0, 0]] none).1 =
      countSols 2 2 (region_map_from_matrix [[0, 0], [0, 0]]) [] :=
  claim_C1 2 [[0, 0], [0, 0]] (by decide) (by decide) (by decide)

/-- C2: whenever the solver returns count 1, a witness was recorded, and it
holds exactly one cell of each region id present in the matrix (so as many
cells as there are regions), lies inside the grid, and no two of its cells
share a row, share a column, or are 8-adjacent (pairwise Chebyshev distance
above 1). -/
theorem claim_C2 {α : Type} [DecidableEq α] [Inhabited α] (m : List (List α))
    (limit : Option Nat)
    (h1 : (solver_count_and_one_solution_from_regions m limit).1 = 1) :
    ∃ w, (solver_count_and_one_solution_from_regions m limit).2 = some w ∧
      w.length = (region_map_from_matrix m).length ∧
      (∀ k ∈ (region_map_from_matrix m).map Prod.fst,
        (w.filter fun c => decide (matAt m c = k)).length = 1) ∧
      w.Pairwise okPair ∧
      (∀ c ∈ w, c.1 < (m.headD []).length ∧ c.2 < m.length) := by
  have hnz : NoneZero (backtrackGen (m.headD []).length m.length limit
      (region_map_from_matrix m) ⟨0, none, [], [], []⟩) :=
    backtrackGen_none (m.headD []).length m.length limit (region_map_from_matrix m)
      ⟨0, none, [], [], []⟩ fun _ => rfl
  have h1g : (backtrackGen (m.headD []).length m.length limit
      (region_map_from_matrix m) ⟨0, none, [], [], []⟩).solutions = 1 := h1
  have hgridm : ∀ e ∈ region_map_from_matrix m, ∀ c ∈ e.2,
      c.1 < (m.headD []).length ∧ c.2 < m.length := by
    intro e he c hc
    have h2 := mem_entry_cells (show (e.1, e.2) ∈ region_map_from_matrix m by simpa using he) hc
    exact ⟨h2.1, h2.2.1⟩
  have hf : ∀ e ∈ region_map_from_matrix m, ∀ c ∈ e.2, matAt m c = e.1 := by
    intro e he c hc
    exact (mem_entry_cells (show (e.1, e.2) ∈ region_map_from_matrix m by simpa using he) hc).2.2
  cases hone : (backtrackGen (m.headD []).length m.length limit
      (region_map_from_matrix m) ⟨0, none, [], [], []⟩).one_solution with
  | none =>
    have h0 := hnz hone
    omega
  | some w =>
    have hcomp : Completes (m.headD []).length m.length [] (region_map_from_matrix m) w := by
      rcases (backtrackGen_main (m.headD []).length m.length limit (region_map_from_matrix m)
          ⟨0, none, [], [], []⟩ ⟨rfl, rfl⟩).2.2 w hone with h | h
      · exact absurd h (by simp)
      · exact h
    obtain ⟨hpw, hgw⟩ := completes_good hcomp hgridm List.Pairwise.nil (by simp)
    refine ⟨w, hone, ?_, ?_, hpw, hgw⟩
    · have hl := completes_length hcomp
      simpa using hl
    · intro k hk
      have hc := completes_filter_count (matAt m) hcomp (region_map_keys_nodup m) hf k
      rw [if_pos hk] at hc
      simpa using hc

theorem claim_C2_witness :
    ∃ w, (solver_count_and_one_solution_from_regions [[(0 : Nat)]] none).2 = some w ∧
      w.length = (region_map_from_matrix [[(0 : Nat)]]).length ∧
      (∀ k ∈ (region_map_from_matrix [[(0 : Nat)]]).map Prod.fst,
        (w.filter fun c => decide (matAt [[(0 : Nat)]] c = k)).length = 1) ∧
      w.Pairwise okPair ∧
      (∀ c ∈ w, c.1 < ([[(0 : Nat)]].headD []).length ∧ c.2 < [[(0 : Nat)]].length) :=
  claim_C2 [[0]] none (by decide)

/-- C3: for every W, H ≥ cells, every region count n with 1 ≤ n ≤ W*H and
every rng behavior (any duplicate-free in-grid sample of n seed cells and any
permutation-valued shuffle), the matrix generated by generate_voronoi_regions
gives every grid cell exactly one region id in 0..n−1 (no cell unclaimed and,
the matrix being single-valued, no overlap), each region contains its own
seed, and each region's cell set is 4-connected (every cell of region r is
reachable from seed r through cells of region r by orthogonal steps). -/
theorem claim_C3 (W H n : Nat) (seeds : List Cell) (shuffle : Nat → List Nat → List Nat)
    (hn1 : 1 ≤ n) (hnWH : n ≤ W * H) (hlen : seeds.length = n) (hnd : seeds.Nodup)
    (hgrid : ∀ s ∈ seeds, s.1 < W ∧ s.2 < H) (hsh : ∀ r l, (shuffle r l).Perm l) :
    (∀ c : Cell, c.1 < W → c.2 < H →
      ∃ r, r < n ∧ matAt (generate_voronoi_regions W H n seeds shuffle) c = some r) ∧
    (∀ i, i < n →
      matAt (generate_voronoi_regions W H n seeds shuffle) (seeds.getD i (0, 0)) = some i) ∧
    (∀ c r, matAt (generate_voronoi_regions W H n seeds shuffle) c = some r →
      Reach4 W H (fun d => matAt (generate_voronoi_regions W H n seeds shuffle) d = some r)
        (seeds.getD r (0, 0)) c) := by
  obtain ⟨inv, hqe, hcl⟩ := generate_inv hn1 hlen hnd hgrid hnWH hsh
  refine ⟨?_, inv.seedsCl, inv.reach⟩
  intro c h1 h2
  cases hm : matAt (generate_voronoi_regions W H n seeds shuffle) c with
  | none => exact absurd hm (hcl c h1 h2)
  | some r => exact ⟨r, inv.matIds c r hm, rfl⟩

theorem claim_C3_witness :
    matAt (generate_voronoi_regions 2 2 2 [(0, 0), (1, 1)] fun _ l => l) (0, 0) = some 0 :=
  (claim_C3 2 2 2 [(0, 0), (1, 1)] (fun _ l => l) (by decide) (by decide) (by decide)
    (by decide) (by decide) fun r l => List.Perm.refl l).2.1 0 (by decide)

/-- C4: on a duplicate-free board of in-grid crowned cells, is_valid_partial
returns false exactly when two distinct crowned cells share a row, share a
column, share a region, or are 8-adjacent (Chebyshev distance at most 1). -/
theorem claim_C4 {α : Type} [DecidableEq α] [Inhabited α] (m : List (List α))
    (board : List Cell) (hnd : board.Nodup)
    (hb : ∀ c ∈ board, c.1 < (m.headD []).length ∧ c.2 < m.length) :
    isValidPartial m board = false ↔
      ∃ c1 ∈ board, ∃ c2 ∈ board, c1 ≠ c2 ∧
        (c1.2 = c2.2 ∨ c1.1 = c2.1 ∨ matAt m c1 = matAt m c2 ∨ cheb c1 c2 ≤ 1) := by
  rw [isValidPartial_false_iff]
  constructor
  · rintro (h | h | h | h)
    · obtain ⟨c, hc, d, hd, hdb⟩ := h
      rw [mem_neighbors] at hd
      refine ⟨c, hc, d, hdb, ?_, Or.inr (Or.inr (Or.inr ?_))⟩
      · intro he
        subst he
        exact hd.2.2.1 rfl
      · rw [cheb_comm]
        exact hd.2.2.2
    · obtain ⟨c1, h1, c2, h2, hne, hfe⟩ :=
        (count_conflict_iff hnd fun d : Cell => d.2).mp h
      exact ⟨c1, h1, c2, h2, hne, Or.inl hfe⟩
    · obtain ⟨c1, h1, c2, h2, hne, hfe⟩ :=
        (count_conflict_iff hnd fun d : Cell => d.1).mp h
      exact ⟨c1, h1, c2, h2, hne, Or.inr (Or.inl hfe)⟩
    · obtain ⟨c1, h1, c2, h2, hne, hfe⟩ :=
        (count_conflict_iff hnd fun d => matAt m d).mp h
      exact ⟨c1, h1, c2, h2, hne, Or.inr (Or.inr (Or.inl hfe))⟩
  · rintro ⟨c1, h1, c2, h2, hne, hrow | hcol | hreg | hadj⟩
    · exact Or.inr (Or.inl
        ((count_conflict_iff hnd fun d : Cell => d.2).mpr ⟨c1, h1, c2, h2, hne, hrow⟩))
    · exact Or.inr (Or.inr (Or.inl
        ((count_conflict_iff hnd fun d : Cell => d.1).mpr ⟨c1, h1, c2, h2, hne, hcol⟩)))
    · exact Or.inr (Or.inr (Or.inr
        ((count_conflict_iff hnd fun d => matAt m d).mpr ⟨c1, h1, c2, h2, hne, hreg⟩)))
    · refine Or.inl ⟨c1, h1, c2, ?_, h2⟩
      rw [mem_neighbors]
      refine ⟨(hb c2 h2).1, (hb c2 h2).2, Ne.symm hne, ?_⟩
      rw [cheb_comm]
      exact hadj

theorem claim_C4_witness :
    isValidPartial [[(0 : Nat), 1], [2, 3]] [(0, 0), (1, 1)] = false :=
  (claim_C4 [[0, 1], [2, 3]] [(0, 0), (1, 1)] (by decide) (by decide)).mpr
    ⟨(0, 0), by decide, (1, 1), by decide, by decide, by decide⟩

/-- C5: for every matrix and every k at least the exhaustive solution count,
solving with limit k returns the same count as solving with no limit; and the
search stops as soon as the running count reaches the limit — on a state
whose counter already meets the limit, the backtracker returns it unchanged. -/
theorem claim_C5 {α : Type} [DecidableEq α] [Inhabited α] (m : List (List α)) (k : Nat)
    (hk : (solver_count_and_one_solution_from_regions m none).1 ≤ k) :
    (solver_count_and_one_solution_from_regions m (some k)).1 =
      (solver_count_and_one_solution_from_regions m none).1 ∧
    ∀ (ids : List (α × List Cell)) (st : GState), k ≤ st.solutions →
      backtrackGen (m.headD []).length m.length (some k) ids st = st := by
  constructor
  · rw [solve_count_some, solve_count_none]
    rw [solve_count_none] at hk
    exact Nat.min_eq_left hk
  · intro ids st h
    cases ids with
    | nil =>
      simp only [backtrackGen]
      rw [if_pos (show limitHit (some k) st.solutions from h)]
    | cons e rest =>
      obtain ⟨rid, cells⟩ := e
      simp only [backtrackGen]
      rw [if_pos (show limitHit (some k) st.solutions from h)]

theorem claim_C5_witness :
    (solver_count_and_one_solution_from_regions [[(0 : Nat)]] (some 5)).1 =
      (solver_count_and_one_solution_from_regions [[(0 : Nat)]] none).1 :=
  (claim_C5 [[0]] 5 (by decide)).1

/-- C6: for every size, attempt budget, want count and rng behavior,
find_and_save_unique_maps makes at most `attempts` iterations, accepts (and
saves, in order) exactly the generated matrices whose limit-2 solver count is
1 paired with their witnesses, keeps found equal to the number of saved
puzzles and at most want, exits only by reaching want or exhausting attempts,
and reports the empty outcome by the non-fatal no-puzzles message exactly
when found is 0 — the function always returns a result, it never raises. -/
theorem claim_C6 (W H attempts want : Nat) (sample : Nat → List Cell)
    (shuffle : Nat → Nat → List Nat → List Nat) :
    (find_and_save_unique_maps W H attempts want sample shuffle).tries ≤ attempts ∧
    (find_and_save_unique_maps W H attempts want sample shuffle).found ≤ want ∧
    (find_and_save_unique_maps W H attempts want sample shuffle).found =
      (find_and_save_unique_maps W H attempts want sample shuffle).saved.length ∧
    ((find_and_save_unique_maps W H attempts want sample shuffle).found = want ∨
      (find_and_save_unique_maps W H attempts want sample shuffle).tries = attempts) ∧
    (find_and_save_unique_maps W H attempts want sample shuffle).saved =
      savedSpec W H sample shuffle
        (find_and_save_unique_maps W H attempts want sample shuffle).tries ∧
    (find_and_save_unique_maps W H attempts want sample shuffle).no_puzzles_msg =
      decide ((find_and_save_unique_maps W H attempts want sample shuffle).found = 0) :=
  findLoop_char W H attempts want sample shuffle attempts 0 0 [] rfl (Nat.zero_le want) rfl rfl

/-- C7: the claim asserts every recorded witness is sorted by x then y. The
generation solver records its witness in search (insertion) order, which need
not be sorted — see the counterexample — so the claim is corrected: only the
play solver sorts, by x coordinate alone; since the cells of a witness occupy
pairwise distinct columns, every witness the play solver records is strictly
increasing in x (hence sorted by x with no y tie to break). -/
theorem claim_C7 {α : Type} [DecidableEq α] [Inhabited α] (m : List (List α))
    (limit : Option Nat) (ws : List (List Cell))
    (h : (solver_count_and_one_solution m limit).2 = some ws) :
    ∀ w ∈ ws, w.Pairwise fun a b : Cell => a.1 < b.1 := by
  have hmain := backtrackPlay_sorted (m.headD []).length m.length limit
    (region_map_from_matrix m) ⟨0, none, [], [], [], []⟩ ⟨rfl, rfl, List.nodup_nil⟩
  have hws : WitSorted (backtrackPlay (m.headD []).length m.length limit
      (region_map_from_matrix m) ⟨0, none, [], [], [], []⟩) :=
    hmain.2 fun ws2 h2 => absurd h2 (by simp)
  exact hws ws h

/-- C7 counterexample: on this 3×3 matrix the generation solver's recorded
witness is [(2,0),(0,1)], whose x coordinates decrease: it is not sorted by
x then y. -/
theorem claim_C7_counterexample :
    (solver_count_and_one_solution_from_regions [[0, 1, 0], [1, 1, 0], [1, 0, 0]] none).2 =
      some [(2, 0), (0, 1)] ∧
    ¬ List.Pairwise (fun a b : Cell => a.1 < b.1 ∨ (a.1 = b.1 ∧ a.2 ≤ b.2)) [(2, 0), (0, 1)] := by
  decide

theorem claim_C7_witness :
    List.Pairwise (fun a b : Cell => a.1 < b.1) [(0, 0)] :=
  claim_C7 [[(0 : Nat)]] none [[(0, 0)]] (by
    show (backtrackPlay 1 1 none (region_map_from_matrix [[(0 : Nat)]])
      ⟨0, none, [], [], [], []⟩).one_solution = some [[(0, 0)]]
    rw [(by decide : region_map_from_matrix [[(0 : Nat)]] = [(0, [(0, 0)])])]
    simp [backtrackPlay, loopPlay, recordPlay, limitHit, neighbors, nbrOffsets, in_bounds])
    [(0, 0)] (List.mem_singleton.mpr rfl)

/-- C8: for every W, H ≥ 1 and region count 1 ≤ n ≤ W*H, under any rng
behavior within its contract, the growth loop of generate_voronoi_regions
terminates within its round budget with all frontier queues empty and every
grid cell claimed; the ghost history of enqueued cells is duplicate-free
(each cell is enqueued at most once), and every round that starts with a
non-empty queue strictly decreases the termination measure (queued cells
plus twice the unclaimed cells), dequeuing at least one cell. -/
theorem claim_C8 (W H n : Nat) (seeds : List Cell) (shuffle : Nat → List Nat → List Nat)
    (hn1 : 1 ≤ n) (hnWH : n ≤ W * H) (hlen : seeds.length = n) (hnd : seeds.Nodup)
    (hgrid : ∀ s ∈ seeds, s.1 < W ∧ s.2 < H) (hsh : ∀ r l, (shuffle r l).Perm l) :
    (∀ q ∈ (voronoiLoop W H shuffle (3 * W * H + 1) (initVState W H n seeds)).queues, q = []) ∧
    (∀ c : Cell, c.1 < W → c.2 < H →
      matAt (generate_voronoi_regions W H n seeds shuffle) c ≠ none) ∧
    (voronoiLoop W H shuffle (3 * W * H + 1) (initVState W H n seeds)).history.Nodup ∧
    (∀ st : VState, VInv0 W H n seeds st → Processed W H st → (∃ q ∈ st.queues, q ≠ []) →
      vmeasure W H (roundStep W H shuffle st) < vmeasure W H st) := by
  obtain ⟨inv, hqe, hcl⟩ := generate_inv hn1 hlen hnd hgrid hnWH hsh
  exact ⟨hqe, fun c h1 h2 => hcl c h1 h2, inv.histNd,
    fun st i p hq => (roundStep_inv hsh i p).2.2.2.2 hq⟩

theorem claim_C8_witness :
    (voronoiLoop 2 2 (fun _ l => l) (3 * 2 * 2 + 1) (initVState 2 2 2 [(0, 0), (1, 1)])).history.Nodup :=
  (claim_C8 2 2 2 [(0, 0), (1, 1)] (fun _ l => l) (by decide) (by decide) (by decide)
    (by decide) (by decide) fun r l => List.Perm.refl l).2.2.1

/-- C9: the backtracker mutates no state that outlives the call: from any
search state whose taken-row and taken-column sets are the projections of its
occupied set (as at every reachable state, the empty initial one included),
every mark placed during the search is undone before return — the final
taken_rows, taken_cols and occupied are the ones the call started from. The
embedding is a pure function of the matrix, so equal calls return equal
(count, witness) results and the matrix argument is never mutated. -/
theorem claim_C9 {α : Type} (W H : Nat) (limit : Option Nat) (ids : List (α × List Cell))
    (st : GState) (hsync : SyncG st) :
    (backtrackGen W H limit ids st).taken_rows = st.taken_rows ∧
    (backtrackGen W H limit ids st).taken_cols = st.taken_cols ∧
    (backtrackGen W H limit ids st).occupied = st.occupied :=
  (backtrackGen_main W H limit ids st hsync).1

theorem claim_C9_witness :
    (backtrackGen 1 1 none (region_map_from_matrix [[(0 : Nat)]])
      ⟨0, none, [], [], []⟩).taken_rows = [] ∧
    (backtrackGen 1 1 none (region_map_from_matrix [[(0 : Nat)]])
      ⟨0, none, [], [], []⟩).taken_cols = [] ∧
    (backtrackGen 1 1 none (region_map_from_matrix [[(0 : Nat)]])
      ⟨0, none, [], [], []⟩).occupied = [] :=
  claim_C9 1 1 none (region_map_from_matrix [[0]]) ⟨0, none, [], [], []⟩ ⟨rfl, rfl⟩

/-- C10: for every matrix and limit k ≥ 1, the count returned under limit k
is exactly min(N, k), where N is the exhaustive count — for both the
generation solver and the play solver; in particular the returned count
never exceeds the limit. -/
theorem claim_C10 {α : Type} [DecidableEq α] [Inhabited α] (m : List (List α)) (k : Nat)
    (hk : 1 ≤ k) :
    (solver_count_and_one_solution_from_regions m (some k)).1 =
      min (solver_count_and_one_solution_from_regions m none).1 k ∧
    (solver_count_and_one_solution m (some k)).1 =
      min (solver_count_and_one_solution m none).1 k := by
  constructor
  · rw [solve_count_some, solve_count_none]
  · rw [solver_play_count_eq_gen, solver_play_count_eq_gen, solve_count_some, solve_count_none]

theorem claim_C10_witness :
    (solver_count_and_one_solution_from_regions [[(0 : Nat)]] (some 1)).1 =
      min (solver_count_and_one_solution_from_regions [[(0 : Nat)]] none).1 1 :=
  (claim_C10 [[0]] 1 (by decide)).1

end Quenns
